import Mathlib

/-!
# Number-collecting maze: state, transition, legal actions, generation, greedy search

Shallow embedding of the C++ sources `01_Greedy.cpp`, `00_MazeState.cpp` and
`MazeState.cpp`.

* The C++ `int` / `int64_t` fields are embedded as `Int`. The transition is given
  twice: `MazeState.advance` with exact arithmetic and checked subscripts, and
  `MazeState.advance32` as the machine executes it, with 32-bit wrap-around and the
  unchecked subscript into the contiguous array. The two agree on legal actions
  whose additions stay within `int` range (`advance32_legal_fits`), which is the case
  in every state reachable from the constructor on the grids of the sources.
* The fixed-size array `int points_[H][W]` is embedded as a list of rows; the
  array type's shape is the predicate `MazeState.WF`.
* `subscript` returns `none` when the index is outside the array, so `advance`
  returns an `Option`; `none` marks an access the sources leave undefined, it is not
  an error the program reports.
* The grid height and width are parameters of the operations (the sources fix
  them to 3x4 in `01_Greedy.cpp` / `00_MazeState.cpp` and to 3x3 in
  `MazeState.cpp`); the constants `H`, `W`, `END_TURN` are those of
  `01_Greedy.cpp`.
* `std::mt19937` is a library generator: it is embedded as its output sequence
  together with the number of outputs already drawn.
* The failed assertion of `greedyAction` is `none`. The remainder by zero of
  `randomAction` is `none` as well, standing for undefined behaviour: the source does
  not test the divisor. The `while` loop of `playGame` is run with a bound on the
  number of loop tests, and printing is omitted.
-/

namespace Maze

/-- Sentinel `constexpr ScoreType INF = 100000000LL`. -/
def INF : Int := 100000000

/-- The struct `Coord` with row `y_` and column `x_`. -/
structure Coord where
  y_ : Int
  x_ : Int
deriving DecidableEq

/-- Grid height `constexpr int H = 3`. -/
def H : Nat := 3

/-- Grid width `constexpr int W = 4` (of `01_Greedy.cpp` and `00_MazeState.cpp`). -/
def W : Nat := 4

/-- Horizon `constexpr int END_TURN = 4`. -/
def END_TURN : Int := 4

/-- Offset table `dx[4] = {1, -1, 0, 0}`. -/
def dx : List Int := [1, -1, 0, 0]

/-- Offset table `dy[4] = {0, 0, 1, -1}`. -/
def dy : List Int := [0, 0, 1, -1]

/-- Total array subscript `a[i]` for an `int` index: `none` outside the array. -/
def subscript {α : Type} (a : List α) (i : Int) : Option α :=
  if 0 ≤ i then a[i.toNat]? else none

/-- The class `MazeState`: board, turn counter, agent, score and cached evaluation. -/
structure MazeState where
  points_ : List (List Int)
  turn_ : Int
  character_ : Coord
  game_score_ : Int
  evaluated_score_ : Int
deriving DecidableEq

namespace MazeState

/-- Shape of `int points_[H][W]`: `H` rows of `W` cells each. -/
def WF (H W : Nat) (s : MazeState) : Prop :=
  s.points_.length = H ∧ ∀ row ∈ s.points_, row.length = W

instance (H W : Nat) (s : MazeState) : Decidable (WF H W s) := by
  unfold WF; infer_instance

/-- Read access `points_[y][x]`, `none` outside the array. -/
def cell (s : MazeState) (y x : Int) : Option Int :=
  (subscript s.points_ y).bind fun row => subscript row x

/-- The agent stands on a cell of the `H`x`W` grid. -/
def inBounds (H W : Nat) (s : MazeState) : Prop :=
  0 ≤ s.character_.y_ ∧ s.character_.y_ < H ∧ 0 ≤ s.character_.x_ ∧ s.character_.x_ < W

instance (H W : Nat) (s : MazeState) : Decidable (inBounds H W s) := by
  unfold inBounds; infer_instance

/-- Method `isDone`: `turn_ == END_TURN`. -/
def isDone (s : MazeState) : Bool :=
  s.turn_ == END_TURN

/-- Method `evaluateScore`: `evaluated_score_ = game_score_`. -/
def evaluateScore (s : MazeState) : MazeState :=
  { s with evaluated_score_ := s.game_score_ }

/-- Method `advance` (spelled `advence` in `MazeState.cpp`) in exact arithmetic: move
the agent by the offset of `action`, collect a positive destination value, count the
turn. `none` marks a subscript outside the offset table or the board, which the
source does not test; `advance32` is the same method with the machine's arithmetic
and unchecked subscript. -/
def advance (s : MazeState) (action : Int) : Option MazeState := do
  let ax ← subscript dx action
  let ay ← subscript dy action
  let x := s.character_.x_ + ax
  let y := s.character_.y_ + ay
  let row ← subscript s.points_ y
  let point ← subscript row x
  let s1 : MazeState := { s with character_ := { y_ := y, x_ := x } }
  let s2 : MazeState :=
    if point > 0 then
      { s1 with
        game_score_ := s1.game_score_ + point,
        points_ := s1.points_.set y.toNat (row.set x.toNat 0) }
    else s1
  some { s2 with turn_ := s2.turn_ + 1 }

/-- Method `legalActions`: the loop `for (action = 0; action < 4; action++)` that
appends every direction whose destination lies in `[0,H) x [0,W)`. -/
def legalActions (H W : Nat) (s : MazeState) : List Int :=
  (List.range 4).foldl
    (fun actions action =>
      let ty := s.character_.y_ + dy.getD action 0
      let tx := s.character_.x_ + dx.getD action 0
      if ty ≥ 0 ∧ ty < H ∧ tx ≥ 0 ∧ tx < W then actions ++ [(action : Int)] else actions)
    []

end MazeState

/-- The type alias `State = MazeState`. -/
abbrev State := MazeState

/-- Evaluation the greedy loop compares for one candidate: clone the state,
`advance(action)`, `evaluateScore()`, read `evaluated_score_`. -/
def candidateScore (state : State) (action : Int) : Option Int :=
  (state.advance action).map fun now_state => now_state.evaluateScore.evaluated_score_

/-- One iteration of the loop of `greedyAction` on the pair
`(best_score, best_action)`. -/
def greedyStep (state : State) (best : Int × Int) (action : Int) : Option (Int × Int) := do
  let now_state ← state.advance action
  let now_state := now_state.evaluateScore
  if now_state.evaluated_score_ > best.1 then
    some (now_state.evaluated_score_, action)
  else
    some best

/-- The loop of `greedyAction` over the list of legal actions. -/
def greedyLoop (state : State) : List Int → Int × Int → Option (Int × Int)
  | [], best => some best
  | action :: rest, best => (greedyStep state best action).bind (greedyLoop state rest)

/-- Function `greedyAction`: the legal action with the greatest evaluated score;
`none` when the assertion `best_action != -1` fails. -/
def greedyAction (H W : Nat) (state : State) : Option Int := do
  let legal_actions := state.legalActions H W
  let best ← greedyLoop state legal_actions (-INF, -1)
  if best.2 ≠ -1 then some best.2 else none

/-- Sequence of advances in which every action is taken from `legalActions` of
the state it is applied to; `none` as soon as one action is not. -/
def legalRun (H W : Nat) : MazeState → List Int → Option MazeState
  | s, [] => some s
  | s, a :: rest =>
    if a ∈ s.legalActions H W then (s.advance a).bind fun s1 => legalRun H W s1 rest
    else none

/-- A sample 3x4 board with the agent on the interior cell (1,1). -/
def sampleState : MazeState :=
  { points_ := [[4, 6, 1, 3], [0, 0, 2, 0], [7, 5, 6, 6]],
    turn_ := 0,
    character_ := { y_ := 1, x_ := 1 },
    game_score_ := 0,
    evaluated_score_ := 0 }

example : sampleState.legalActions H W = [0, 1, 2, 3] := by decide
example : greedyAction H W sampleState = some 3 := by decide
example : (sampleState.advance 3).map (fun s => s.game_score_) = some 6 := by decide

/-- In-grid test of the destination of direction `a` from the agent's cell. -/
def MazeState.destInGrid (H W : Nat) (s : MazeState) (ay ax : Int) : Prop :=
  0 ≤ s.character_.y_ + ay ∧ s.character_.y_ + ay < H ∧
    0 ≤ s.character_.x_ + ax ∧ s.character_.x_ + ax < W

instance (H W : Nat) (s : MazeState) (ay ax : Int) : Decidable (s.destInGrid H W ay ax) := by
  unfold MazeState.destInGrid; infer_instance

/-- The state `advance` produces once its four subscripts have succeeded. -/
def MazeState.moved (s : MazeState) (ay ax : Int) (row : List Int) (point : Int) : MazeState :=
  { points_ :=
      if point > 0 then
        s.points_.set (s.character_.y_ + ay).toNat (row.set (s.character_.x_ + ax).toNat 0)
      else s.points_,
    turn_ := s.turn_ + 1,
    character_ := { y_ := s.character_.y_ + ay, x_ := s.character_.x_ + ax },
    game_score_ := if point > 0 then s.game_score_ + point else s.game_score_,
    evaluated_score_ := s.evaluated_score_ }

/-- Every cell of the board holds a non-negative value. -/
def MazeState.nonNegCells (s : MazeState) : Prop :=
  ∀ row ∈ s.points_, ∀ v ∈ row, 0 ≤ v

instance (s : MazeState) : Decidable s.nonNegCells := by
  unfold MazeState.nonNegCells; infer_instance

/-- The sample board at the horizon: `turn_ == END_TURN`. -/
def horizonState : MazeState :=
  { sampleState with turn_ := END_TURN }

/-- Generator `std::mt19937`: the output sequence fixed by the seed and the number
of outputs drawn so far. -/
structure mt19937 where
  outputs : Nat → Nat
  drawn : Nat

/-- Call operator `mt()`: the next output and the advanced generator. -/
def mt19937.next (g : mt19937) : Nat × mt19937 :=
  (g.outputs g.drawn, { g with drawn := g.drawn + 1 })

/-- Write access `points_[y][x] = v`. -/
def setCell (points : List (List Int)) (y x : Nat) (v : Int) : List (List Int) :=
  points.set y ((points.getD y []).set x v)

/-- Default member initialisers: zeroed `points_[H][W]`, `turn_ = 0`,
`character_ = Coord()`, `game_score_ = 0`, `evaluated_score_ = 0`. -/
def MazeState.default (H W : Nat) : MazeState :=
  { points_ := List.replicate H (List.replicate W 0),
    turn_ := 0,
    character_ := { y_ := 0, x_ := 0 },
    game_score_ := 0,
    evaluated_score_ := 0 }

/-- Body of the inner loop of the constructor for the cell `(y, x)`: `continue` on
the agent's cell, otherwise `points_[y][x] = mt_for_construct() % 10`. -/
def constructBody (acc : MazeState × mt19937) (y x : Nat) : MazeState × mt19937 :=
  if (y : Int) = acc.1.character_.y_ ∧ (x : Int) = acc.1.character_.x_ then acc
  else
    let (r, g) := acc.2.next
    ({ acc.1 with points_ := setCell acc.1.points_ y x ((r % 10 : Nat) : Int) }, g)

/-- Constructor `MazeState(const int seed)` run on the generator
`mt_for_construct = std::mt19937(seed)`; returns the state and the generator
after the draws. -/
def MazeState.construct (H W : Nat) (mt_for_construct : mt19937) : MazeState × mt19937 :=
  let (r0, g) := mt_for_construct.next
  let (r1, g) := g.next
  let this : MazeState :=
    { MazeState.default H W with
      character_ := { y_ := ((r0 % H : Nat) : Int), x_ := ((r1 % W : Nat) : Int) } }
  (List.range H).foldl
    (fun acc y => (List.range W).foldl (fun acc x => constructBody acc y x) acc)
    (this, g)

/-- The state `MazeState(seed)` when `std::mt19937(seed)` outputs the sequence `r`. -/
def MazeState.ofOutputs (H W : Nat) (r : Nat → Nat) : MazeState :=
  (MazeState.construct H W { outputs := r, drawn := 0 }).1

/-- Specification side of generation: the cells of the `H`x`W` grid in the order
of the row-major sweep. -/
def rowMajor (H W : Nat) : List (Nat × Nat) :=
  (List.range H).flatMap fun y => (List.range W).map fun x => (y, x)

/-- Specification side of generation: the cells that are not the agent's cell, in
row-major order; the `k`-th of them is the one that receives the draw `r (2+k)`. -/
def pointCells (H W : Nat) (agent : Nat × Nat) : List (Nat × Nat) :=
  (rowMajor H W).filter fun c => c ≠ agent

/-- Position of the first occurrence of the cell `c` in a list of cells (the length
of the list when `c` does not occur). -/
def indexIn (c : Nat × Nat) : List (Nat × Nat) → Nat
  | [] => 0
  | d :: rest => if d = c then 0 else indexIn c rest + 1

/-- An output sequence used in examples: `r i = 7 * i + 5`. -/
def sampleOutputs : Nat → Nat := fun i => 7 * i + 5

example : rowMajor 2 3 = [(0, 0), (0, 1), (0, 2), (1, 0), (1, 1), (1, 2)] := by decide
example : pointCells 2 2 (0, 1) = [(0, 0), (1, 0), (1, 1)] := by decide
example : (MazeState.ofOutputs H W sampleOutputs).points_ =
    [[9, 6, 3, 0], [7, 4, 1, 8], [0, 5, 2, 9]] := by decide
example : (MazeState.ofOutputs H W sampleOutputs).character_ = { y_ := 2, x_ := 0 } := by decide
example : (MazeState.construct H W { outputs := sampleOutputs, drawn := 0 }).2.drawn = 13 := by
  decide

/-- The 1x1 board: a single cell, with the agent on it. -/
def cornerState : MazeState :=
  { points_ := [[0]],
    turn_ := 0,
    character_ := { y_ := 0, x_ := 0 },
    game_score_ := 0,
    evaluated_score_ := 0 }

example : cornerState.legalActions 1 1 = [] := by decide
example : MazeState.ofOutputs 1 1 sampleOutputs = cornerState := by decide

/-- Unsigned remainder `a % b`; `none` stands for the undefined remainder by 0, which
the source does not test. -/
def umod (a b : Nat) : Option Nat :=
  if b = 0 then none else some (a % b)

/-- Function `randomAction` of `00_MazeState.cpp`:
`legal_actions[mt_for_action() % legal_actions.size()]` on the shared generator
`mt_for_action`; returns the action and the generator after the draw. `none` stands
for undefined behaviour (remainder by 0, subscript outside the vector), not for an
error the function reports: the source has no test of the list's size. -/
def randomAction (H W : Nat) (state : State) (mt_for_action : mt19937) :
    Option (Int × mt19937) := do
  let legal_actions := state.legalActions H W
  let (r, g) := mt_for_action.next
  let i ← umod r legal_actions.length
  let action ← legal_actions[i]?
  some (action, g)

example : (randomAction H W sampleState { outputs := sampleOutputs, drawn := 0 }).map
    (fun p => (p.1, p.2.drawn)) = some (1, 1) := by decide
example : (randomAction 1 1 cornerState { outputs := sampleOutputs, drawn := 0 }).isSome
    = false := by decide

/-- Sum of all cell values of the board. -/
def MazeState.cellSum (s : MazeState) : Int :=
  (s.points_.map List.sum).sum

example : sampleState.cellSum = 40 := by decide

/-- Every cell of the board holds a value in `[0, 9]`. -/
def MazeState.cellsInRange (s : MazeState) : Prop :=
  ∀ row ∈ s.points_, ∀ v ∈ row, 0 ≤ v ∧ v ≤ 9

instance (s : MazeState) : Decidable s.cellsInRange := by
  unfold MazeState.cellsInRange; infer_instance

/-- Value `points_[y + dy[a]][x + dx[a]]` of the destination cell of direction `a`. -/
def MazeState.destValue (s : MazeState) (a : Int) : Option Int := do
  let ay ← subscript dy a
  let ax ← subscript dx a
  s.cell (s.character_.y_ + ay) (s.character_.x_ + ax)

/-- Value of a 32-bit two's-complement `int` holding the mathematical integer `n`
after wrap-around. -/
def wrapInt32 (n : Int) : Int :=
  (n + 2147483648) % 4294967296 - 2147483648

example : wrapInt32 2147483648 = -2147483648 := by decide
example : wrapInt32 (-5) = -5 := by decide
example : sampleState.destValue 3 = some 6 := by decide

/-- The loop `while (!state.isDone()) state.advance(greedyAction(state))` of
`playGame` in `01_Greedy.cpp`, with a bound `fuel` on the number of loop tests;
returns the final state and the actions passed to `advance` (`none` when the fuel
runs out, the assertion of `greedyAction` fails or `advance` fails). Printing is
omitted. -/
def playLoop (H W : Nat) : Nat → State → Option (State × List Int)
  | 0, _ => none
  | fuel + 1, state =>
    if state.isDone then some (state, [])
    else do
      let action ← greedyAction H W state
      let next ← state.advance action
      let (final, actions) ← playLoop H W fuel next
      some (final, action :: actions)

/-- Function `playGame(seed)` of `01_Greedy.cpp` on the generator
`std::mt19937(seed)`: construct the state, then run the loop. -/
def playGame (H W : Nat) (fuel : Nat) (mt_for_construct : mt19937) :
    Option (State × List Int) :=
  playLoop H W fuel (MazeState.construct H W mt_for_construct).1

/-- Specification side of the greedy refinement: the first action of
`legalActions()` whose destination cell value is maximal among the destination
cell values of all legal actions. -/
def argmaxAction (H W : Nat) (s : MazeState) : Option Int :=
  (s.legalActions H W).find? fun a =>
    (s.legalActions H W).all fun b =>
      decide ((s.destValue b).getD 0 ≤ (s.destValue a).getD 0)

/-- The sample board with a score far below the sentinel `-INF`. -/
def debtState : MazeState :=
  { sampleState with game_score_ := -200000000 }

example : (playGame H W 5 { outputs := sampleOutputs, drawn := 0 }).map
    (fun p => (p.1.turn_, p.1.game_score_, p.2)) = some (4, 26, [3, 3, 0, 2]) := by decide
example : playGame H W 4 { outputs := sampleOutputs, drawn := 0 } = none := by decide
example : argmaxAction H W sampleState = some 3 := by decide
example : greedyAction H W debtState = none := by decide

/-- Range of a 32-bit `int`: `INT_MIN <= n <= INT_MAX`. -/
def fitsInt32 (n : Int) : Prop :=
  -2147483648 ≤ n ∧ n ≤ 2147483647

instance (n : Int) : Decidable (fitsInt32 n) := by
  unfold fitsInt32; infer_instance

/-- Typing of the C++ state: the `constexpr int` dimensions and every `int` member
and cell hold 32-bit values. -/
def MazeState.typed32 (H W : Nat) (s : MazeState) : Prop :=
  (H : Int) ≤ 2147483647 ∧ (W : Int) ≤ 2147483647 ∧
  fitsInt32 s.turn_ ∧ fitsInt32 s.character_.y_ ∧ fitsInt32 s.character_.x_ ∧
  fitsInt32 s.game_score_ ∧ ∀ row ∈ s.points_, ∀ v ∈ row, fitsInt32 v

instance (H W : Nat) (s : MazeState) : Decidable (s.typed32 H W) := by
  unfold MazeState.typed32; infer_instance

/-- Method `advance` as the machine executes it: `int` arithmetic wraps around at 32
bits and the subscript `points_[y][x]` is unchecked, addressing element `y * W + x`
of the contiguous row-major array, i.e. the cell in row `(y * W + x) / W`, column
`(y * W + x) % W`. The result is `none` only where an access leaves the offset table
or the array `points_` altogether: what the machine finds there depends on the
neighbouring memory, which is not part of this embedding. -/
def MazeState.advance32 (W : Nat) (s : MazeState) (action : Int) : Option MazeState := do
  let ax ← subscript dx action
  let ay ← subscript dy action
  let x := wrapInt32 (s.character_.x_ + ax)
  let y := wrapInt32 (s.character_.y_ + ay)
  let i := y * W + x
  let row ← subscript s.points_ (i / W)
  let point ← subscript row (i % W)
  let s1 : MazeState := { s with character_ := { y_ := y, x_ := x } }
  let s2 : MazeState :=
    if point > 0 then
      { s1 with
        game_score_ := wrapInt32 (s1.game_score_ + point),
        points_ := s1.points_.set (i / W).toNat (row.set (i % W).toNat 0) }
    else s1
  some { s2 with turn_ := wrapInt32 (s2.turn_ + 1) }

/-- The 32-bit values of `game_score_` and `turn_` after wrap-around. -/
def MazeState.wrap32 (s : MazeState) : MazeState :=
  { s with game_score_ := wrapInt32 s.game_score_, turn_ := wrapInt32 s.turn_ }

/-- The addition `game_score_ += point` for the destination of `action` stays within
`INT_MAX`. -/
def MazeState.scoreFits (s : MazeState) (action : Int) : Prop :=
  s.game_score_ + (s.destValue action).getD 0 ≤ 2147483647

instance (s : MazeState) (action : Int) : Decidable (s.scoreFits action) := by
  unfold MazeState.scoreFits; infer_instance

/-- Candidate evaluation of the greedy loop on the machine: clone, `advance`
(32-bit), `evaluateScore()`, read the `int64_t` member `evaluated_score_`. -/
def candidateScore32 (W : Nat) (state : State) (action : Int) : Option Int :=
  (state.advance32 W action).map fun now_state => now_state.evaluateScore.evaluated_score_

/-- One iteration of the loop of `greedyAction` with the machine's `advance`. -/
def greedyStep32 (W : Nat) (state : State) (best : Int × Int) (action : Int) :
    Option (Int × Int) := do
  let now_state ← state.advance32 W action
  let now_state := now_state.evaluateScore
  if now_state.evaluated_score_ > best.1 then
    some (now_state.evaluated_score_, action)
  else
    some best

/-- The loop of `greedyAction` with the machine's `advance`. -/
def greedyLoop32 (W : Nat) (state : State) : List Int → Int × Int → Option (Int × Int)
  | [], best => some best
  | action :: rest, best =>
    (greedyStep32 W state best action).bind (greedyLoop32 W state rest)

/-- Function `greedyAction` with the machine's `advance`; `none` when the assertion
`best_action != -1` fails. -/
def greedyAction32 (H W : Nat) (state : State) : Option Int := do
  let legal_actions := state.legalActions H W
  let best ← greedyLoop32 W state legal_actions (-INF, -1)
  if best.2 ≠ -1 then some best.2 else none

/-- Sequence of machine advances in which every action is taken from `legalActions`
of the state it is applied to; `none` as soon as one action is not. -/
def legalRun32 (H W : Nat) : MazeState → List Int → Option MazeState
  | s, [] => some s
  | s, a :: rest =>
    if a ∈ s.legalActions H W then (s.advance32 W a).bind fun s1 => legalRun32 H W s1 rest
    else none

/-- The sample board with `game_score_ = INT_MAX`. -/
def richState : MazeState :=
  { sampleState with game_score_ := 2147483647 }

/-- The sample board with `turn_ = INT_MAX`. -/
def lateState : MazeState :=
  { sampleState with turn_ := 2147483647 }

/-- The sample board with the agent in the last column, on cell (1,3). -/
def eastEdgeState : MazeState :=
  { sampleState with character_ := { y_ := 1, x_ := 3 } }

/-- A board whose four neighbours of (1,1) are positive, with `game_score_ = INT_MAX`. -/
def ringState : MazeState :=
  { points_ := [[4, 6, 1, 3], [6, 0, 2, 0], [7, 6, 6, 6]],
    turn_ := 0,
    character_ := { y_ := 1, x_ := 1 },
    game_score_ := 2147483647,
    evaluated_score_ := 0 }

/-- The sample board with `game_score_ = INT_MAX - 3`. -/
def nearMaxState : MazeState :=
  { sampleState with game_score_ := 2147483644 }

/-- The default-constructed 3x4 state `MazeState()` with the public member `character_`
set away from the grid, to (5,5). -/
def strandedState : MazeState :=
  { MazeState.default H W with character_ := { y_ := 5, x_ := 5 } }

example : (richState.advance32 W 3).map (fun s => s.game_score_) = some (-2147483643) := by
  decide
example : (lateState.advance32 W 0).map (fun s => s.turn_) = some (-2147483648) := by decide
example : sampleState.advance32 W 3 = sampleState.advance 3 := by decide
example : (eastEdgeState.advance32 W 0).map
    (fun s => (s.character_, s.game_score_, s.turn_, s.points_)) =
    some ({ y_ := 1, x_ := 4 }, 7, 1, [[4, 6, 1, 3], [0, 0, 2, 0], [0, 5, 6, 6]]) := by decide
example : greedyAction32 H W ringState = none := by decide
example : greedyAction32 H W nearMaxState = some 0 := by decide
example : greedyAction32 H W sampleState = some 3 := by decide
example : strandedState.legalActions H W = [] := by decide

/-! ## Theorems -/

theorem legalActions_eq (H W : Nat) (s : MazeState) :
    s.legalActions H W =
      (if s.destInGrid H W 0 1 then [0] else []) ++
      (if s.destInGrid H W 0 (-1) then [1] else []) ++
      (if s.destInGrid H W 1 0 then [2] else []) ++
      (if s.destInGrid H W (-1) 0 then [3] else []) := by
  have e0 : (s.character_.y_ + 0 ≥ 0 ∧ s.character_.y_ + 0 < (H : Int) ∧
      s.character_.x_ + 1 ≥ 0 ∧ s.character_.x_ + 1 < (W : Int)) ↔ s.destInGrid H W 0 1 := by
    simp [MazeState.destInGrid]
  have e1 : (s.character_.y_ + 0 ≥ 0 ∧ s.character_.y_ + 0 < (H : Int) ∧
      s.character_.x_ + -1 ≥ 0 ∧ s.character_.x_ + -1 < (W : Int)) ↔
      s.destInGrid H W 0 (-1) := by
    simp [MazeState.destInGrid]
  have e2 : (s.character_.y_ + 1 ≥ 0 ∧ s.character_.y_ + 1 < (H : Int) ∧
      s.character_.x_ + 0 ≥ 0 ∧ s.character_.x_ + 0 < (W : Int)) ↔ s.destInGrid H W 1 0 := by
    simp [MazeState.destInGrid]
  have e3 : (s.character_.y_ + -1 ≥ 0 ∧ s.character_.y_ + -1 < (H : Int) ∧
      s.character_.x_ + 0 ≥ 0 ∧ s.character_.x_ + 0 < (W : Int)) ↔
      s.destInGrid H W (-1) 0 := by
    simp [MazeState.destInGrid]
  simp only [MazeState.legalActions, List.range, List.range.loop, List.foldl, dx, dy]
  simp only [List.getD_cons_zero, List.getD_cons_succ, e0, e1, e2, e3]
  by_cases h0 : s.destInGrid H W 0 1 <;> by_cases h1 : s.destInGrid H W 0 (-1) <;>
  by_cases h2 : s.destInGrid H W 1 0 <;> by_cases h3 : s.destInGrid H W (-1) 0 <;>
  simp [h0, h1, h2, h3]

theorem subscript_eq_none_iff {α : Type} (l : List α) (i : Int) :
    subscript l i = none ↔ i < 0 ∨ (l.length : Int) ≤ i := by
  unfold subscript
  split
  · rw [List.getElem?_eq_none_iff]; omega
  · simp; omega

theorem subscript_eq_some_iff {α : Type} (l : List α) (i : Int) (v : α) :
    subscript l i = some v ↔ 0 ≤ i ∧ l[i.toNat]? = some v := by
  unfold subscript
  split <;> simp [*]

theorem subscript_some_bounds {α : Type} {l : List α} {i : Int} {v : α}
    (h : subscript l i = some v) : 0 ≤ i ∧ i < l.length := by
  by_contra hc
  have : subscript l i = none := (subscript_eq_none_iff l i).2 (by omega)
  rw [h] at this
  cases this

theorem subscript_dx_dy {a ay ax : Int} (hy : subscript dy a = some ay)
    (hx : subscript dx a = some ax) :
    (a = 0 ∧ ay = 0 ∧ ax = 1) ∨ (a = 1 ∧ ay = 0 ∧ ax = -1) ∨
      (a = 2 ∧ ay = 1 ∧ ax = 0) ∨ (a = 3 ∧ ay = -1 ∧ ax = 0) := by
  have hb := subscript_some_bounds hy
  simp only [dy, List.length_cons, List.length_nil] at hb
  have ha : a = 0 ∨ a = 1 ∨ a = 2 ∨ a = 3 := by omega
  rcases ha with rfl | rfl | rfl | rfl <;>
    simp [subscript, dx, dy] at hx hy <;> omega

theorem mem_legalActions (H W : Nat) (s : MazeState) (a : Int) :
    a ∈ s.legalActions H W ↔
      (a = 0 ∧ s.destInGrid H W 0 1) ∨ (a = 1 ∧ s.destInGrid H W 0 (-1)) ∨
        (a = 2 ∧ s.destInGrid H W 1 0) ∨ (a = 3 ∧ s.destInGrid H W (-1) 0) := by
  rw [legalActions_eq]
  by_cases h0 : s.destInGrid H W 0 1 <;> by_cases h1 : s.destInGrid H W 0 (-1) <;>
  by_cases h2 : s.destInGrid H W 1 0 <;> by_cases h3 : s.destInGrid H W (-1) 0 <;>
  simp [h0, h1, h2, h3]

theorem mem_legalActions_iff (H W : Nat) (s : MazeState) (a : Int) :
    a ∈ s.legalActions H W ↔
      ∃ ay ax, subscript dy a = some ay ∧ subscript dx a = some ax ∧
        s.destInGrid H W ay ax := by
  rw [mem_legalActions]
  constructor
  · rintro (⟨rfl, h⟩ | ⟨rfl, h⟩ | ⟨rfl, h⟩ | ⟨rfl, h⟩)
    · exact ⟨0, 1, by decide, by decide, h⟩
    · exact ⟨0, -1, by decide, by decide, h⟩
    · exact ⟨1, 0, by decide, by decide, h⟩
    · exact ⟨-1, 0, by decide, by decide, h⟩
  · rintro ⟨ay, ax, hy, hx, h⟩
    rcases subscript_dx_dy hy hx with ⟨rfl, rfl, rfl⟩ | ⟨rfl, rfl, rfl⟩ | ⟨rfl, rfl, rfl⟩ |
      ⟨rfl, rfl, rfl⟩
    · exact Or.inl ⟨rfl, h⟩
    · exact Or.inr (Or.inl ⟨rfl, h⟩)
    · exact Or.inr (Or.inr (Or.inl ⟨rfl, h⟩))
    · exact Or.inr (Or.inr (Or.inr ⟨rfl, h⟩))

theorem legalActions_pairwise (H W : Nat) (s : MazeState) :
    (s.legalActions H W).Pairwise (fun a b => a < b) := by
  rw [legalActions_eq]
  by_cases h0 : s.destInGrid H W 0 1 <;> by_cases h1 : s.destInGrid H W 0 (-1) <;>
  by_cases h2 : s.destInGrid H W 1 0 <;> by_cases h3 : s.destInGrid H W (-1) 0 <;>
  simp [h0, h1, h2, h3]

/-- C3: `legalActions` lists exactly the direction indices of the offset tables
`dx = [1,-1,0,0]`, `dy = [0,0,1,-1]` whose destination lies in `[0,H) x [0,W)`
(so every listed index is in `0..3` and none leaves the grid), as the filtered
index sequence `0,1,2,3`, strictly increasing and without repetition, and it is
`[0,1,2,3]` on a fully interior cell. -/
theorem legalActions_exact (H W : Nat) (s : MazeState) :
    dx = [1, -1, 0, 0] ∧ dy = [0, 0, 1, -1] ∧
    (∀ a : Int, a ∈ s.legalActions H W ↔
      ∃ ay ax, subscript dy a = some ay ∧ subscript dx a = some ax ∧
        0 ≤ s.character_.y_ + ay ∧ s.character_.y_ + ay < H ∧
        0 ≤ s.character_.x_ + ax ∧ s.character_.x_ + ax < W) ∧
    (∀ a ∈ s.legalActions H W, 0 ≤ a ∧ a ≤ 3) ∧
    s.legalActions H W =
      ([0, 1, 2, 3] : List Int).filter (fun a =>
        decide (0 ≤ s.character_.y_ + dy.getD a.toNat 0 ∧
          s.character_.y_ + dy.getD a.toNat 0 < H ∧
          0 ≤ s.character_.x_ + dx.getD a.toNat 0 ∧
          s.character_.x_ + dx.getD a.toNat 0 < W)) ∧
    (s.legalActions H W).Pairwise (fun a b => a < b) ∧
    (s.legalActions H W).Nodup ∧
    (0 < s.character_.y_ ∧ s.character_.y_ < (H : Int) - 1 ∧
      0 < s.character_.x_ ∧ s.character_.x_ < (W : Int) - 1 →
      s.legalActions H W = [0, 1, 2, 3]) := by
  refine ⟨rfl, rfl, fun a => mem_legalActions_iff H W s a, ?_, ?_,
    legalActions_pairwise H W s, ?_, ?_⟩
  · intro a ha
    rw [mem_legalActions] at ha
    omega
  · rw [legalActions_eq]
    have k : ∀ a : Int,
        (0 ≤ s.character_.y_ + dy.getD a.toNat 0 ∧ s.character_.y_ + dy.getD a.toNat 0 < H ∧
          0 ≤ s.character_.x_ + dx.getD a.toNat 0 ∧ s.character_.x_ + dx.getD a.toNat 0 < W) ↔
        s.destInGrid H W (dy.getD a.toNat 0) (dx.getD a.toNat 0) := fun _ => Iff.rfl
    simp only [k]
    have k0 : s.destInGrid H W (dy.getD (0 : Int).toNat 0) (dx.getD (0 : Int).toNat 0) ↔
        s.destInGrid H W 0 1 := Iff.rfl
    have k1 : s.destInGrid H W (dy.getD (1 : Int).toNat 0) (dx.getD (1 : Int).toNat 0) ↔
        s.destInGrid H W 0 (-1) := Iff.rfl
    have k2 : s.destInGrid H W (dy.getD (2 : Int).toNat 0) (dx.getD (2 : Int).toNat 0) ↔
        s.destInGrid H W 1 0 := Iff.rfl
    have k3 : s.destInGrid H W (dy.getD (3 : Int).toNat 0) (dx.getD (3 : Int).toNat 0) ↔
        s.destInGrid H W (-1) 0 := Iff.rfl
    simp only [List.filter_cons, List.filter_nil, decide_eq_true_eq, k0, k1, k2, k3]
    by_cases h0 : s.destInGrid H W 0 1 <;> by_cases h1 : s.destInGrid H W 0 (-1) <;>
    by_cases h2 : s.destInGrid H W 1 0 <;> by_cases h3 : s.destInGrid H W (-1) 0 <;>
    simp [h0, h1, h2, h3]
  · exact (legalActions_pairwise H W s).imp (fun h => ne_of_lt h)
  · rintro ⟨h1, h2, h3, h4⟩
    rw [legalActions_eq]
    have e0 : s.destInGrid H W 0 1 := by unfold MazeState.destInGrid; omega
    have e1 : s.destInGrid H W 0 (-1) := by unfold MazeState.destInGrid; omega
    have e2 : s.destInGrid H W 1 0 := by unfold MazeState.destInGrid; omega
    have e3 : s.destInGrid H W (-1) 0 := by unfold MazeState.destInGrid; omega
    simp [e0, e1, e2, e3]

/-- The interior cell (1,1) of the 3x4 board has all four directions legal. -/
theorem legalActions_exact_witness :
    (0 < sampleState.character_.y_ ∧ sampleState.character_.y_ < (H : Int) - 1 ∧
      0 < sampleState.character_.x_ ∧ sampleState.character_.x_ < (W : Int) - 1) ∧
    sampleState.legalActions H W = [0, 1, 2, 3] :=
  ⟨by decide, (legalActions_exact H W sampleState).2.2.2.2.2.2.2 (by decide)⟩

theorem advance_of_subscripts {s : MazeState} {a ay ax : Int} {row : List Int} {point : Int}
    (hx : subscript dx a = some ax) (hy : subscript dy a = some ay)
    (hr : subscript s.points_ (s.character_.y_ + ay) = some row)
    (hp : subscript row (s.character_.x_ + ax) = some point) :
    s.advance a = some (s.moved ay ax row point) := by
  simp only [MazeState.advance, hx, hy, hr, hp, Option.bind_eq_bind, Option.some_bind,
    MazeState.moved]
  by_cases h : point > 0 <;> simp [h]

theorem advance_inv {s s1 : MazeState} {a : Int} (h : s.advance a = some s1) :
    ∃ ay ax row point, subscript dx a = some ax ∧ subscript dy a = some ay ∧
      subscript s.points_ (s.character_.y_ + ay) = some row ∧
      subscript row (s.character_.x_ + ax) = some point ∧
      s1 = s.moved ay ax row point := by
  cases hx : subscript dx a with
  | none => simp [MazeState.advance, hx] at h
  | some ax =>
    cases hy : subscript dy a with
    | none => simp [MazeState.advance, hx, hy] at h
    | some ay =>
      cases hr : subscript s.points_ (s.character_.y_ + ay) with
      | none => simp [MazeState.advance, hx, hy, hr] at h
      | some row =>
        cases hp : subscript row (s.character_.x_ + ax) with
        | none => simp [MazeState.advance, hx, hy, hr, hp] at h
        | some point =>
          rw [advance_of_subscripts hx hy hr hp] at h
          exact ⟨ay, ax, row, point, rfl, rfl, hr, hp, (Option.some.inj h).symm⟩

theorem subscript_of_bounds {α : Type} {l : List α} {i : Int} (h0 : 0 ≤ i)
    (h1 : i < l.length) : ∃ v, subscript l i = some v ∧ v ∈ l := by
  have hlt : i.toNat < l.length := by omega
  refine ⟨l[i.toNat], ?_, List.getElem_mem hlt⟩
  simp [subscript, h0, List.getElem?_eq_getElem hlt]

theorem subscript_mem {α : Type} {l : List α} {i : Int} {v : α}
    (h : subscript l i = some v) : v ∈ l := by
  rw [subscript_eq_some_iff] at h
  exact List.getElem?_mem h.2

theorem cell_of_bounds {H W : Nat} {s : MazeState} (hwf : s.WF H W) {y x : Int}
    (hy0 : 0 ≤ y) (hy1 : y < H) (hx0 : 0 ≤ x) (hx1 : x < W) :
    ∃ row v, subscript s.points_ y = some row ∧ subscript row x = some v ∧
      s.cell y x = some v := by
  obtain ⟨row, hr, hmem⟩ := subscript_of_bounds (l := s.points_) hy0 (by rw [hwf.1]; exact hy1)
  obtain ⟨v, hv, _⟩ := subscript_of_bounds (l := row) hx0 (by rw [hwf.2 row hmem]; exact hx1)
  exact ⟨row, v, hr, hv, by simp [MazeState.cell, hr, hv]⟩

theorem cell_eq_none_iff {H W : Nat} {s : MazeState} (hwf : s.WF H W) (y x : Int) :
    s.cell y x = none ↔ ¬ (0 ≤ y ∧ y < H ∧ 0 ≤ x ∧ x < W) := by
  constructor
  · rintro h ⟨h1, h2, h3, h4⟩
    obtain ⟨_, v, _, _, hc⟩ := cell_of_bounds hwf h1 h2 h3 h4
    rw [h] at hc
    cases hc
  · intro h
    cases hr : subscript s.points_ y with
    | none => simp [MazeState.cell, hr]
    | some row =>
      have hb := subscript_some_bounds hr
      have hl := hwf.2 row (subscript_mem hr)
      rw [hwf.1] at hb
      have : subscript row x = none := (subscript_eq_none_iff row x).2 (by omega)
      simp [MazeState.cell, hr, this]

theorem subscript_set_set (pts : List (List Int)) (y x : Int) (row : List Int) (v : Int)
    (hr : subscript pts y = some row) (hx0 : 0 ≤ x) (hx1 : x < row.length) (y1 x1 : Int) :
    (subscript (pts.set y.toNat (row.set x.toNat v)) y1).bind (fun r => subscript r x1) =
      if y1 = y ∧ x1 = x then some v else (subscript pts y1).bind (fun r => subscript r x1) := by
  have hy := subscript_some_bounds hr
  rw [subscript_eq_some_iff] at hr
  by_cases h1 : 0 ≤ y1
  · by_cases hyy : y1 = y
    · subst hyy
      have hlt : y1.toNat < pts.length := by omega
      simp only [subscript, h1, if_true, List.getElem?_set_self hlt, hr.2, Option.some_bind,
        true_and]
      by_cases h2 : 0 ≤ x1
      · by_cases hxx : x1 = x
        · subst hxx
          have hlt2 : x1.toNat < row.length := by omega
          simp [h2, List.getElem?_set_self hlt2]
        · have hne : x.toNat ≠ x1.toNat := by omega
          simp [h2, hxx, List.getElem?_set_ne hne]
      · have : x1 ≠ x := by omega
        simp [h2, this]
    · have hne : y.toNat ≠ y1.toNat := by omega
      simp [subscript, h1, hyy, List.getElem?_set_ne hne]
  · have : y1 ≠ y := by omega
    simp [subscript, h1, this]

theorem moved_cell {s : MazeState} {ay ax : Int} {row : List Int} {point : Int}
    (hr : subscript s.points_ (s.character_.y_ + ay) = some row)
    (hp : subscript row (s.character_.x_ + ax) = some point) (y1 x1 : Int) :
    (s.moved ay ax row point).cell y1 x1 =
      if point > 0 ∧ y1 = s.character_.y_ + ay ∧ x1 = s.character_.x_ + ax then some 0
      else s.cell y1 x1 := by
  have hb := subscript_some_bounds hp
  by_cases h : point > 0
  · simp only [MazeState.cell, MazeState.moved, h, if_true, true_and]
    exact subscript_set_set s.points_ _ _ row 0 hr hb.1 hb.2 y1 x1
  · simp [MazeState.cell, MazeState.moved, h]

theorem moved_WF {H W : Nat} {s : MazeState} (hwf : s.WF H W) {ay ax : Int} {row : List Int}
    (point : Int) (hr : subscript s.points_ (s.character_.y_ + ay) = some row) :
    (s.moved ay ax row point).WF H W := by
  by_cases h : point > 0
  · refine ⟨by simp [MazeState.moved, h, hwf.1], ?_⟩
    intro r hmem
    simp only [MazeState.moved, h, if_true] at hmem
    rcases List.mem_or_eq_of_mem_set hmem with h1 | h1
    · exact hwf.2 r h1
    · rw [h1, List.length_set]
      exact hwf.2 row (subscript_mem hr)
  · simpa [MazeState.WF, MazeState.moved, h] using hwf

theorem legal_advance {H W : Nat} {s : MazeState} (hwf : s.WF H W) {a : Int}
    (ha : a ∈ s.legalActions H W) :
    ∃ ay ax row point, subscript dx a = some ax ∧ subscript dy a = some ay ∧
      subscript s.points_ (s.character_.y_ + ay) = some row ∧
      subscript row (s.character_.x_ + ax) = some point ∧
      s.cell (s.character_.y_ + ay) (s.character_.x_ + ax) = some point ∧
      s.destInGrid H W ay ax ∧
      s.advance a = some (s.moved ay ax row point) := by
  obtain ⟨ay, ax, hy, hx, hd⟩ := (mem_legalActions_iff H W s a).1 ha
  obtain ⟨row, point, hr, hp, hc⟩ := cell_of_bounds hwf hd.1 hd.2.1 hd.2.2.1 hd.2.2.2
  exact ⟨ay, ax, row, point, hx, hy, hr, hp, hc, hd, advance_of_subscripts hx hy hr hp⟩

theorem advance_isSome_iff {H W : Nat} {s : MazeState} (hwf : s.WF H W) (a : Int) :
    (s.advance a).isSome ↔ a ∈ s.legalActions H W := by
  constructor
  · intro h
    obtain ⟨s1, hs1⟩ := Option.isSome_iff_exists.1 h
    obtain ⟨ay, ax, row, point, hx, hy, hr, hp, _⟩ := advance_inv hs1
    have hb1 := subscript_some_bounds hr
    have hb2 := subscript_some_bounds hp
    rw [hwf.1] at hb1
    rw [hwf.2 row (subscript_mem hr)] at hb2
    exact (mem_legalActions_iff H W s a).2 ⟨ay, ax, hy, hx, hb1.1, hb1.2, hb2.1, hb2.2⟩
  · intro h
    obtain ⟨_, _, _, _, _, _, _, _, _, _, hadv⟩ := legal_advance hwf h
    simp [hadv]

theorem advance_WF {H W : Nat} {s s1 : MazeState} (hwf : s.WF H W) {a : Int}
    (h : s.advance a = some s1) : s1.WF H W := by
  obtain ⟨ay, ax, row, point, _, _, hr, _, rfl⟩ := advance_inv h
  exact moved_WF hwf point hr

theorem advance_inBounds {H W : Nat} {s s1 : MazeState} (hwf : s.WF H W) {a : Int}
    (h : s.advance a = some s1) : s1.inBounds H W := by
  obtain ⟨ay, ax, row, point, _, _, hr, hp, rfl⟩ := advance_inv h
  have hb1 := subscript_some_bounds hr
  have hb2 := subscript_some_bounds hp
  rw [hwf.1] at hb1
  rw [hwf.2 row (subscript_mem hr)] at hb2
  exact ⟨hb1.1, hb1.2, hb2.1, hb2.2⟩

theorem advance_exact_post (H W : Nat) (s : MazeState) (a : Int) (hwf : s.WF H W)
    (hin : s.inBounds H W) (ha : a ∈ s.legalActions H W) :
    ∃ ay ax v s1, subscript dy a = some ay ∧ subscript dx a = some ax ∧
      s.cell (s.character_.y_ + ay) (s.character_.x_ + ax) = some v ∧
      s.advance a = some s1 ∧
      s1.character_ = { y_ := s.character_.y_ + ay, x_ := s.character_.x_ + ax } ∧
      (v > 0 → s1.game_score_ = s.game_score_ + v ∧
        s1.cell (s.character_.y_ + ay) (s.character_.x_ + ax) = some 0) ∧
      (¬ v > 0 → s1.game_score_ = s.game_score_ ∧
        s1.cell (s.character_.y_ + ay) (s.character_.x_ + ax) = some v) ∧
      s1.turn_ = s.turn_ + 1 ∧
      (∀ y1 x1 : Int, ¬ (y1 = s.character_.y_ + ay ∧ x1 = s.character_.x_ + ax) →
        s1.cell y1 x1 = s.cell y1 x1) := by
  have _ := hin
  obtain ⟨ay, ax, row, point, hx, hy, hr, hp, hc, _, hadv⟩ := legal_advance hwf ha
  refine ⟨ay, ax, point, s.moved ay ax row point, hy, hx, hc, hadv, rfl, ?_, ?_, rfl, ?_⟩
  · intro hv
    refine ⟨by simp [MazeState.moved, hv], ?_⟩
    rw [moved_cell hr hp]
    simp [hv]
  · intro hv
    refine ⟨by simp [MazeState.moved, hv], ?_⟩
    rw [moved_cell hr hp]
    simp [hv, hc]
  · intro y1 x1 hne
    rw [moved_cell hr hp]
    simp [hne]

theorem advance_eq_none_iff {H W : Nat} {s : MazeState} (hwf : s.WF H W) (a : Int) :
    s.advance a = none ↔ a ∉ s.legalActions H W := by
  rw [← advance_isSome_iff hwf a]
  cases s.advance a <;> simp

theorem legalRun_cons_some {H W : Nat} {s s2 : MazeState} {a : Int} {rest : List Int}
    (h : legalRun H W s (a :: rest) = some s2) :
    ∃ s1, a ∈ s.legalActions H W ∧ s.advance a = some s1 ∧ legalRun H W s1 rest = some s2 := by
  unfold legalRun at h
  by_cases ha : a ∈ s.legalActions H W
  · rw [if_pos ha] at h
    cases hadv : s.advance a with
    | none => simp [hadv] at h
    | some s1 => exact ⟨s1, ha, rfl, by simpa [hadv] using h⟩
  · rw [if_neg ha] at h
    cases h

theorem legalRun_cons_of {H W : Nat} {s s1 : MazeState} {a : Int} (rest : List Int)
    (ha : a ∈ s.legalActions H W) (hadv : s.advance a = some s1) :
    legalRun H W s (a :: rest) = legalRun H W s1 rest := by
  rw [legalRun, if_pos ha, hadv]
  rfl

theorem legalRun_append (H W : Nat) (s : MazeState) (l1 l2 : List Int) :
    legalRun H W s (l1 ++ l2) = (legalRun H W s l1).bind fun s1 => legalRun H W s1 l2 := by
  induction l1 generalizing s with
  | nil => simp [legalRun]
  | cons a rest ih =>
    simp only [List.cons_append, legalRun]
    by_cases ha : a ∈ s.legalActions H W
    · simp only [if_pos ha]
      cases s.advance a with
      | none => rfl
      | some s1 => simpa using ih s1
    · simp [if_neg ha]

theorem legalRun_WF {H W : Nat} {s s1 : MazeState} {actions : List Int} (hwf : s.WF H W)
    (h : legalRun H W s actions = some s1) : s1.WF H W := by
  induction actions generalizing s with
  | nil =>
    simp only [legalRun, Option.some.injEq] at h
    exact h ▸ hwf
  | cons a rest ih =>
    obtain ⟨s2, _, hadv, hrest⟩ := legalRun_cons_some h
    exact ih (advance_WF hwf hadv) hrest

theorem legalRun_inBounds {H W : Nat} {s s1 : MazeState} {actions : List Int}
    (hwf : s.WF H W) (hin : s.inBounds H W) (h : legalRun H W s actions = some s1) :
    s1.inBounds H W := by
  induction actions generalizing s with
  | nil =>
    simp only [legalRun, Option.some.injEq] at h
    exact h ▸ hin
  | cons a rest ih =>
    obtain ⟨s2, _, hadv, hrest⟩ := legalRun_cons_some h
    exact ih (advance_WF hwf hadv) (advance_inBounds hwf hadv) hrest

theorem legalRun_prefix {H W : Nat} {s s2 : MazeState} {l1 l2 : List Int}
    (h : legalRun H W s (l1 ++ l2) = some s2) :
    ∃ s1, legalRun H W s l1 = some s1 ∧ legalRun H W s1 l2 = some s2 := by
  rw [legalRun_append] at h
  cases h1 : legalRun H W s l1 with
  | none => simp [h1] at h
  | some s1 => exact ⟨s1, rfl, by simpa [h1] using h⟩

theorem legalRun_step {H W : Nat} {s s2 : MazeState} {actions : List Int}
    (h : legalRun H W s actions = some s2) (i : Nat) (hi : i < actions.length) :
    ∃ si sj, legalRun H W s (actions.take i) = some si ∧
      actions[i] ∈ si.legalActions H W ∧ si.advance actions[i] = some sj ∧
      legalRun H W s (actions.take (i + 1)) = some sj := by
  have hsplit : actions = actions.take i ++ (actions[i] :: actions.drop (i + 1)) := by
    rw [← List.drop_eq_getElem_cons hi, List.take_append_drop]
  rw [hsplit] at h
  obtain ⟨si, hsi, hrest⟩ := legalRun_prefix h
  obtain ⟨sj, hleg, hadv, _⟩ := legalRun_cons_some hrest
  refine ⟨si, sj, hsi, hleg, hadv, ?_⟩
  have htake : actions.take (i + 1) = actions.take i ++ [actions[i]] := by
    rw [List.take_succ, List.getElem?_eq_getElem hi]
    rfl
  rw [htake, legalRun_append, hsi]
  simp [legalRun, hleg, hadv]

theorem advance_score_le {s s1 : MazeState} {a : Int} (h : s.advance a = some s1) :
    s.game_score_ ≤ s1.game_score_ := by
  obtain ⟨ay, ax, row, point, _, _, _, _, rfl⟩ := advance_inv h
  by_cases hp : point > 0
  · simp only [MazeState.moved, hp, if_true]
    omega
  · simp [MazeState.moved, hp]

theorem advance_turn {s s1 : MazeState} {a : Int} (h : s.advance a = some s1) :
    s1.turn_ = s.turn_ + 1 := by
  obtain ⟨ay, ax, row, point, _, _, _, _, rfl⟩ := advance_inv h
  rfl

theorem legalRun_turn {H W : Nat} {s s1 : MazeState} {actions : List Int}
    (h : legalRun H W s actions = some s1) : s1.turn_ = s.turn_ + actions.length := by
  induction actions generalizing s with
  | nil =>
    simp only [legalRun, Option.some.injEq] at h
    simp [← h]
  | cons a rest ih =>
    obtain ⟨s2, _, hadv, hrest⟩ := legalRun_cons_some h
    rw [ih hrest, advance_turn hadv, List.length_cons]
    push_cast
    ring

theorem legalRun_score_le {H W : Nat} {s s1 : MazeState} {actions : List Int}
    (h : legalRun H W s actions = some s1) : s.game_score_ ≤ s1.game_score_ := by
  induction actions generalizing s with
  | nil =>
    simp only [legalRun, Option.some.injEq] at h
    simp [← h]
  | cons a rest ih =>
    obtain ⟨s2, _, hadv, hrest⟩ := legalRun_cons_some h
    exact le_trans (advance_score_le hadv) (ih hrest)

theorem cell_eq_some_mem {s : MazeState} {y x v : Int} (h : s.cell y x = some v) :
    ∃ row ∈ s.points_, v ∈ row := by
  cases hr : subscript s.points_ y with
  | none => simp [MazeState.cell, hr] at h
  | some row =>
    simp only [MazeState.cell, hr, Option.some_bind] at h
    exact ⟨row, subscript_mem hr, subscript_mem h⟩

theorem nonNegCells_cell {s : MazeState} (hnn : s.nonNegCells) {y x v : Int}
    (h : s.cell y x = some v) : 0 ≤ v := by
  obtain ⟨row, hrow, hv⟩ := cell_eq_some_mem h
  exact hnn row hrow v hv

theorem moved_nonNegCells {s : MazeState} (hnn : s.nonNegCells) {ay ax : Int}
    {row : List Int} (point : Int)
    (hr : subscript s.points_ (s.character_.y_ + ay) = some row) :
    (s.moved ay ax row point).nonNegCells := by
  by_cases h : point > 0
  · intro r hmem v hv
    simp only [MazeState.moved, h, if_true] at hmem
    rcases List.mem_or_eq_of_mem_set hmem with h1 | h1
    · exact hnn r h1 v hv
    · rw [h1] at hv
      rcases List.mem_or_eq_of_mem_set hv with h2 | h2
      · exact hnn row (subscript_mem hr) v h2
      · omega
  · simpa [MazeState.nonNegCells, MazeState.moved, h] using hnn

theorem advance_nonNegCells {s s1 : MazeState} {a : Int} (hnn : s.nonNegCells)
    (h : s.advance a = some s1) : s1.nonNegCells := by
  obtain ⟨ay, ax, row, point, _, _, hr, _, rfl⟩ := advance_inv h
  exact moved_nonNegCells hnn point hr

theorem advance_cell_zero {s s1 : MazeState} {a : Int} (h : s.advance a = some s1)
    {y x : Int} (hz : s.cell y x = some 0) : s1.cell y x = some 0 := by
  obtain ⟨ay, ax, row, point, _, _, hr, hp, rfl⟩ := advance_inv h
  rw [moved_cell hr hp]
  split
  · rfl
  · exact hz

theorem advance_landing_zero {s s1 : MazeState} {a : Int} (hnn : s.nonNegCells)
    (h : s.advance a = some s1) : s1.cell s1.character_.y_ s1.character_.x_ = some 0 := by
  obtain ⟨ay, ax, row, point, _, _, hr, hp, rfl⟩ := advance_inv h
  rw [moved_cell hr hp]
  have hc : s.cell (s.character_.y_ + ay) (s.character_.x_ + ax) = some point := by
    simp [MazeState.cell, hr, hp]
  by_cases hpt : point > 0
  · simp [MazeState.moved, hpt]
  · have h0 := nonNegCells_cell hnn hc
    have : point = 0 := by omega
    subst this
    simpa [MazeState.moved] using hc

theorem advance_onto_zero {s s1 : MazeState} {a : Int} (h : s.advance a = some s1)
    (hz : s.cell s1.character_.y_ s1.character_.x_ = some 0) :
    s1.game_score_ = s.game_score_ := by
  obtain ⟨ay, ax, row, point, _, _, hr, hp, rfl⟩ := advance_inv h
  have hc : s.cell (s.character_.y_ + ay) (s.character_.x_ + ax) = some point := by
    simp [MazeState.cell, hr, hp]
  have hz1 : s.cell (s.character_.y_ + ay) (s.character_.x_ + ax) = some 0 := hz
  rw [hc] at hz1
  have : point = 0 := Option.some.inj hz1
  subst this
  simp [MazeState.moved]

theorem legalRun_cell_zero {H W : Nat} {s s1 : MazeState} {actions : List Int}
    (h : legalRun H W s actions = some s1) {y x : Int} (hz : s.cell y x = some 0) :
    s1.cell y x = some 0 := by
  induction actions generalizing s with
  | nil =>
    simp only [legalRun, Option.some.injEq] at h
    exact h ▸ hz
  | cons a rest ih =>
    obtain ⟨s2, _, hadv, hrest⟩ := legalRun_cons_some h
    exact ih hrest (advance_cell_zero hadv hz)

theorem legalRun_nonNegCells {H W : Nat} {s s1 : MazeState} {actions : List Int}
    (hnn : s.nonNegCells) (h : legalRun H W s actions = some s1) : s1.nonNegCells := by
  induction actions generalizing s with
  | nil =>
    simp only [legalRun, Option.some.injEq] at h
    exact h ▸ hnn
  | cons a rest ih =>
    obtain ⟨s2, _, hadv, hrest⟩ := legalRun_cons_some h
    exact ih (advance_nonNegCells hnn hadv) hrest

theorem legalRun_between {H W : Nat} {s sn : MazeState} {actions : List Int}
    (h : legalRun H W s actions = some sn) (i k : Nat) (hik : i ≤ k) :
    ∃ si sk, legalRun H W s (actions.take i) = some si ∧
      legalRun H W s (actions.take k) = some sk ∧
      legalRun H W si ((actions.take k).drop i) = some sk := by
  have h1 : legalRun H W s (actions.take k ++ actions.drop k) = some sn := by
    rw [List.take_append_drop]; exact h
  obtain ⟨sk, hsk, _⟩ := legalRun_prefix h1
  have h2 : legalRun H W s ((actions.take k).take i ++ (actions.take k).drop i) = some sk := by
    rw [List.take_append_drop]; exact hsk
  obtain ⟨si, hsi, hrest⟩ := legalRun_prefix h2
  rw [List.take_take, Nat.min_eq_left hik] at hsi
  exact ⟨si, sk, hsi, hsk, hrest⟩

theorem legalRun_landed_zero {H W : Nat} {s sn : MazeState} {actions : List Int}
    (hnn : s.nonNegCells) (hrun : legalRun H W s actions = some sn) (i k : Nat)
    (hik : i < k) (hk : k ≤ actions.length) :
    ∃ si sk, legalRun H W s (actions.take (i + 1)) = some si ∧
      legalRun H W s (actions.take k) = some sk ∧
      sk.cell si.character_.y_ si.character_.x_ = some 0 := by
  obtain ⟨sp, si, hsp, _, hadv, hsi⟩ := legalRun_step hrun i (by omega)
  have hz := advance_landing_zero (legalRun_nonNegCells hnn hsp) hadv
  obtain ⟨si1, sk, hsi1, hsk, hrest⟩ := legalRun_between hrun (i + 1) k hik
  rw [hsi] at hsi1
  obtain rfl := Option.some.inj hsi1
  exact ⟨si, sk, hsi, hsk, legalRun_cell_zero hrest hz⟩

/-- C8: on a board of non-negative values, along any sequence of legal advances
(step `i` applies `actions[i]`): if the agent lands on the same cell at step `i`
and at a later step `j`, step `j` leaves `game_score_` unchanged; and a cell that
has been landed on holds 0 in every later state. -/
theorem collect_once (H W : Nat) (s : MazeState) (hwf : s.WF H W) (hin : s.inBounds H W)
    (hnn : s.nonNegCells) (actions : List Int) (sn : MazeState)
    (hrun : legalRun H W s actions = some sn) :
    (∀ i j, i < j → j < actions.length →
      ∃ si sp sj, legalRun H W s (actions.take (i + 1)) = some si ∧
        legalRun H W s (actions.take j) = some sp ∧
        sp.advance actions[j]! = some sj ∧
        legalRun H W s (actions.take (j + 1)) = some sj ∧
        (si.character_ = sj.character_ → sj.game_score_ = sp.game_score_)) ∧
    (∀ i k, i < k → k ≤ actions.length →
      ∃ si sk, legalRun H W s (actions.take (i + 1)) = some si ∧
        legalRun H W s (actions.take k) = some sk ∧
        sk.cell si.character_.y_ si.character_.x_ = some 0) := by
  have _ := hwf
  have _ := hin
  refine ⟨?_, fun i k hik hk => legalRun_landed_zero hnn hrun i k hik hk⟩
  intro i j hij hj
  obtain ⟨si, sp, hsi, hsp, hz⟩ := legalRun_landed_zero hnn hrun i j hij (by omega)
  obtain ⟨sp1, sj, hsp1, _, hadv, hsj⟩ := legalRun_step hrun j hj
  rw [hsp] at hsp1
  obtain rfl := Option.some.inj hsp1
  refine ⟨si, sp, sj, hsi, hsp, ?_, hsj, ?_⟩
  · rw [getElem!_pos actions j hj]
    exact hadv
  · intro hc
    rw [hc] at hz
    exact advance_onto_zero hadv hz

/-- On the sample board the walk north, south, north lands on cell (0,1) at
steps 0 and 2; the second landing leaves the score at 6. -/
theorem collect_once_witness :
    sampleState.WF H W ∧ sampleState.inBounds H W ∧ sampleState.nonNegCells ∧
    (legalRun H W sampleState [3, 2, 3]).map (fun sn => (sn.character_, sn.game_score_))
      = some ({ y_ := 0, x_ := 1 }, 6) ∧
    (legalRun H W sampleState [3]).map (fun sn => (sn.character_, sn.game_score_))
      = some ({ y_ := 0, x_ := 1 }, 6) ∧
    ∃ si sp sj, legalRun H W sampleState (([3, 2, 3] : List Int).take (0 + 1)) = some si ∧
      legalRun H W sampleState (([3, 2, 3] : List Int).take 2) = some sp ∧
      sp.advance ([3, 2, 3] : List Int)[2]! = some sj ∧
      legalRun H W sampleState (([3, 2, 3] : List Int).take (2 + 1)) = some sj ∧
      (si.character_ = sj.character_ → sj.game_score_ = sp.game_score_) :=
  ⟨by decide, by decide, by decide, by decide, by decide,
    (collect_once H W sampleState (by decide) (by decide) (by decide) [3, 2, 3]
      ((legalRun H W sampleState [3, 2, 3]).get (by decide))
      (Option.some_get _).symm).1 0 2 (by decide) (by decide)⟩

/-- C10 as stated fails: a state with `turn_ = END_TURN` satisfies
`0 <= turn_ <= END_TURN`, action 0 is legal, and `advance` raises `turn_` to 5. -/
theorem turn_bound_counterexample :
    ¬ ∀ (s : MazeState) (a : Int), s.WF H W → s.inBounds H W →
        0 ≤ s.turn_ → s.turn_ ≤ END_TURN → a ∈ s.legalActions H W →
        ∀ s1, s.advance a = some s1 → s.turn_ ≤ s1.turn_ ∧ s1.turn_ ≤ END_TURN := by
  intro h
  have h1 := h horizonState 0 (by decide) (by decide) (by decide) (by decide) (by decide)
    ((horizonState.advance 0).get (by decide)) (Option.some_get _).symm
  exact absurd h1.2 (by decide)

/-- C10 amended: for every state with `0 <= turn_ <= END_TURN` and every legal
action, `advance` succeeds and raises `turn_` by exactly one, so `turn_` never
decreases; the new `turn_` is within `END_TURN` exactly when the state was not
yet done, which is the only situation in which the drivers call `advance`. -/
theorem turn_bound_amended (H W : Nat) (s : MazeState) (a : Int) (hwf : s.WF H W)
    (h0 : 0 ≤ s.turn_) (h1 : s.turn_ ≤ END_TURN) (ha : a ∈ s.legalActions H W) :
    ∃ s1, s.advance a = some s1 ∧ s1.turn_ = s.turn_ + 1 ∧ s.turn_ ≤ s1.turn_ ∧
      0 ≤ s1.turn_ ∧ (s1.turn_ ≤ END_TURN ↔ s.isDone = false) := by
  obtain ⟨s1, hs1⟩ := Option.isSome_iff_exists.1 ((advance_isSome_iff hwf a).2 ha)
  have ht := advance_turn hs1
  refine ⟨s1, hs1, ht, by omega, by omega, ?_⟩
  simp only [MazeState.isDone, beq_eq_false_iff_ne, ne_eq]
  rw [ht]
  constructor
  · intro h hc
    omega
  · intro h
    have : s.turn_ ≠ END_TURN := h
    omega

/-- From turn 0 on the sample board, `advance` reaches turn 1, within the horizon. -/
theorem turn_bound_amended_witness :
    sampleState.WF H W ∧ 0 ≤ sampleState.turn_ ∧ sampleState.turn_ ≤ END_TURN ∧
    (0 : Int) ∈ sampleState.legalActions H W ∧
    ∃ s1, sampleState.advance 0 = some s1 ∧ s1.turn_ = sampleState.turn_ + 1 ∧
      sampleState.turn_ ≤ s1.turn_ ∧ 0 ≤ s1.turn_ ∧
      (s1.turn_ ≤ END_TURN ↔ sampleState.isDone = false) :=
  ⟨by decide, by decide, by decide, by decide,
    turn_bound_amended H W sampleState 0 (by decide) (by decide) (by decide) (by decide)⟩

theorem greedyStep_eq {state : State} {a v : Int} (h : candidateScore state a = some v)
    (best : Int × Int) :
    greedyStep state best a = some (if v > best.1 then (v, a) else best) := by
  cases hadv : state.advance a with
  | none => simp [candidateScore, hadv] at h
  | some s1 =>
    simp only [candidateScore, hadv, Option.map_some', Option.some.injEq] at h
    simp only [greedyStep, hadv, Option.bind_eq_bind, Option.some_bind, h]
    by_cases hv : v > best.1 <;> simp [hv]

theorem greedyLoop_spec (state : State) (f : Int → Int) (l : List Int)
    (hf : ∀ a ∈ l, candidateScore state a = some (f a)) (best : Int × Int) :
    ∃ r, greedyLoop state l best = some r ∧
      ((r = best ∧ ∀ a ∈ l, f a ≤ best.1) ∨
        (∃ pre post, l = pre ++ r.2 :: post ∧ r.1 = f r.2 ∧ best.1 < r.1 ∧
          (∀ a ∈ pre, f a < r.1) ∧ (∀ a ∈ post, f a ≤ r.1))) := by
  induction l generalizing best with
  | nil => exact ⟨best, rfl, Or.inl ⟨rfl, by simp⟩⟩
  | cons a rest ih =>
    have hfa := hf a (List.mem_cons_self a rest)
    have hrest : ∀ b ∈ rest, candidateScore state b = some (f b) :=
      fun b hb => hf b (List.mem_cons_of_mem a hb)
    simp only [greedyLoop, greedyStep_eq hfa best, Option.some_bind]
    by_cases hv : f a > best.1
    · simp only [hv, if_true]
      obtain ⟨r, hr, hcase⟩ := ih hrest (f a, a)
      refine ⟨r, hr, Or.inr ?_⟩
      rcases hcase with ⟨rfl, hall⟩ | ⟨pre, post, hl, h1, h2, h3, h4⟩
      · exact ⟨[], rest, rfl, rfl, hv, by simp, hall⟩
      · refine ⟨a :: pre, post, by rw [hl]; rfl, h1, lt_trans hv h2, ?_, h4⟩
        intro b hb
        rcases List.mem_cons.1 hb with rfl | hb
        · exact h2
        · exact h3 b hb
    · simp only [hv, if_false]
      obtain ⟨r, hr, hcase⟩ := ih hrest best
      refine ⟨r, hr, ?_⟩
      rcases hcase with ⟨rfl, hall⟩ | ⟨pre, post, hl, h1, h2, h3, h4⟩
      · refine Or.inl ⟨rfl, ?_⟩
        intro b hb
        rcases List.mem_cons.1 hb with rfl | hb
        · exact not_lt.1 hv
        · exact hall b hb
      · refine Or.inr ⟨a :: pre, post, by rw [hl]; rfl, h1, h2, ?_, h4⟩
        intro b hb
        rcases List.mem_cons.1 hb with rfl | hb
        · exact lt_of_le_of_lt (not_lt.1 hv) h2
        · exact h3 b hb

theorem candidateScore_legal {H W : Nat} {s : MazeState} (hwf : s.WF H W) {a : Int}
    (ha : a ∈ s.legalActions H W) :
    ∃ v, candidateScore s a = some v ∧ s.game_score_ ≤ v := by
  obtain ⟨s1, hs1⟩ := Option.isSome_iff_exists.1 ((advance_isSome_iff hwf a).2 ha)
  exact ⟨s1.game_score_, by simp [candidateScore, hs1, MazeState.evaluateScore],
    advance_score_le hs1⟩

theorem greedyAction_spec {H W : Nat} {s : MazeState} (hwf : s.WF H W)
    (hlow : -INF < s.game_score_) (hne : s.legalActions H W ≠ []) :
    ∃ a sa, greedyAction H W s = some a ∧ a ∈ s.legalActions H W ∧
      candidateScore s a = some sa ∧
      ∀ b ∈ s.legalActions H W, ∃ sb, candidateScore s b = some sb ∧ sb ≤ sa ∧
        (b < a → sb < sa) := by
  have hf : ∀ a ∈ s.legalActions H W,
      candidateScore s a = some ((candidateScore s a).getD 0) := by
    intro a ha
    obtain ⟨v, hv, _⟩ := candidateScore_legal hwf ha
    simp [hv]
  have hge : ∀ a ∈ s.legalActions H W, -INF < (candidateScore s a).getD 0 := by
    intro a ha
    obtain ⟨v, hv, hle⟩ := candidateScore_legal hwf ha
    simp only [hv, Option.getD_some]
    omega
  obtain ⟨r, hr, hcase⟩ := greedyLoop_spec s (fun a => (candidateScore s a).getD 0)
    (s.legalActions H W) hf (-INF, -1)
  rcases hcase with ⟨_, hall⟩ | ⟨pre, post, hl, h1, _, h3, h4⟩
  · obtain ⟨a, ha⟩ := List.exists_mem_of_ne_nil _ hne
    exact absurd (hall a ha) (not_le.2 (hge a ha))
  · have hmem : r.2 ∈ s.legalActions H W := by rw [hl]; simp
    have hr2 : r.2 ≠ -1 := by
      have := (mem_legalActions H W s r.2).1 hmem
      omega
    have hpw := legalActions_pairwise H W s
    rw [hl] at hpw
    refine ⟨r.2, r.1, ?_, hmem, by rw [h1]; exact hf r.2 hmem, ?_⟩
    · simp [greedyAction, hr, hr2]
    · intro b hb
      refine ⟨(candidateScore s b).getD 0, hf b hb, ?_, ?_⟩
      · rw [hl] at hb
        rcases List.mem_append.1 hb with hb | hb
        · exact le_of_lt (h3 b hb)
        · rcases List.mem_cons.1 hb with rfl | hb
          · exact le_of_eq h1.symm
          · exact h4 b hb
      · intro hlt
        rw [hl] at hb
        rcases List.mem_append.1 hb with hb | hb
        · exact h3 b hb
        · rcases List.mem_cons.1 hb with rfl | hb
          · exact absurd hlt (lt_irrefl _)
          · have := (List.pairwise_cons.1 (List.pairwise_append.1 hpw).2.1).1 b hb
            omega

theorem subscript_natCast_getD (pts : List (List Int)) (y : Nat) (hy : y < pts.length) :
    subscript pts (y : Int) = some (pts.getD y []) := by
  simp [subscript, List.getD_eq_getElem?_getD, List.getElem?_eq_getElem hy]

theorem setCell_cell (pts : List (List Int)) (y x : Nat) (hy : y < pts.length)
    (hx : x < (pts.getD y []).length) (v : Int) (y1 x1 : Int) :
    (subscript (setCell pts y x v) y1).bind (fun r => subscript r x1) =
      if y1 = y ∧ x1 = x then some v else (subscript pts y1).bind (fun r => subscript r x1) := by
  have h := subscript_set_set pts (y : Int) (x : Int) (pts.getD y []) v
    (subscript_natCast_getD pts y hy) (by omega) (by omega) y1 x1
  simpa [setCell] using h

theorem setCell_WF {H W : Nat} {s : MazeState} (hwf : s.WF H W) (y x : Nat) (v : Int)
    (hy : y < H) : MazeState.WF H W { s with points_ := setCell s.points_ y x v } := by
  refine ⟨by simp [setCell, hwf.1], ?_⟩
  intro r hmem
  rcases List.mem_or_eq_of_mem_set hmem with h1 | h1
  · exact hwf.2 r h1
  · rw [h1, List.length_set]
    have hlt : y < s.points_.length := by rw [hwf.1]; exact hy
    have hm : s.points_.getD y [] ∈ s.points_ := by
      rw [List.getD_eq_getElem?_getD, List.getElem?_eq_getElem hlt]
      exact List.getElem_mem hlt
    exact hwf.2 _ hm

theorem foldl_flatMap_map {α β γ : Type} (f : γ → α → β → γ) (l1 : List α) (l2 : List β)
    (init : γ) :
    l1.foldl (fun acc a => l2.foldl (fun acc b => f acc a b) acc) init =
      (l1.flatMap fun a => l2.map fun b => (a, b)).foldl (fun acc c => f acc c.1 c.2) init := by
  induction l1 generalizing init with
  | nil => rfl
  | cons a rest ih =>
    simp only [List.foldl_cons, List.flatMap_cons, List.foldl_append, List.foldl_map]
    exact ih _

theorem construct_eq_foldl (H W : Nat) (g : mt19937) :
    MazeState.construct H W g =
      (rowMajor H W).foldl (fun acc c => constructBody acc c.1 c.2)
        ({ MazeState.default H W with
            character_ := { y_ := ((g.outputs g.drawn % H : Nat) : Int),
                            x_ := ((g.outputs (g.drawn + 1) % W : Nat) : Int) } },
          { g with drawn := g.drawn + 2 }) := by
  simp only [MazeState.construct, mt19937.next, rowMajor]
  exact foldl_flatMap_map constructBody (List.range H) (List.range W) _

theorem mem_rowMajor (H W : Nat) (c : Nat × Nat) :
    c ∈ rowMajor H W ↔ c.1 < H ∧ c.2 < W := by
  obtain ⟨y, x⟩ := c
  simp only [rowMajor, List.mem_flatMap, List.mem_range, List.mem_map, Prod.mk.injEq]
  constructor
  · rintro ⟨a, ha, b, hb, rfl, rfl⟩
    exact ⟨ha, hb⟩
  · rintro ⟨h1, h2⟩
    exact ⟨y, h1, x, h2, rfl, rfl⟩

theorem nodup_rowMajor (H W : Nat) : (rowMajor H W).Nodup := by
  unfold rowMajor
  rw [List.nodup_flatMap]
  refine ⟨?_, ?_⟩
  · intro y _
    exact (List.nodup_range W).map (fun a b h => (Prod.mk.inj h).2)
  · refine (List.nodup_range H).imp ?_
    intro a b hab
    simp only [Function.onFun, List.disjoint_left, List.mem_map, List.mem_range]
    rintro c ⟨x1, _, rfl⟩ ⟨x2, _, h2⟩
    exact hab (Prod.mk.inj h2).1.symm

theorem length_rowMajor (H W : Nat) : (rowMajor H W).length = H * W := by
  unfold rowMajor
  induction H with
  | zero => simp
  | succ n ih =>
    rw [List.range_succ, List.flatMap_append, List.length_append, ih]
    simp [Nat.succ_mul]

theorem length_pointCells (H W : Nat) (agent : Nat × Nat) (h1 : agent.1 < H)
    (h2 : agent.2 < W) : (pointCells H W agent).length = H * W - 1 := by
  have hmem : agent ∈ rowMajor H W := (mem_rowMajor H W agent).2 ⟨h1, h2⟩
  have he : (rowMajor H W).erase agent = pointCells H W agent := by
    rw [(nodup_rowMajor H W).erase_eq_filter agent]
    unfold pointCells
    congr 1
    funext c
    by_cases hc : c = agent <;> simp [hc]
  rw [← he, List.length_erase_of_mem hmem, length_rowMajor]

theorem constructBody_agent {st : MazeState} {g : mt19937} {cy cx y x : Nat}
    (hc : st.character_ = { y_ := (cy : Int), x_ := (cx : Int) }) (h : (y, x) = (cy, cx)) :
    constructBody (st, g) y x = (st, g) := by
  obtain ⟨rfl, rfl⟩ := Prod.mk.inj h
  simp [constructBody, hc]

theorem constructBody_point {st : MazeState} {g : mt19937} {cy cx y x : Nat}
    (hc : st.character_ = { y_ := (cy : Int), x_ := (cx : Int) }) (h : (y, x) ≠ (cy, cx)) :
    constructBody (st, g) y x =
      ({ st with points_ := setCell st.points_ y x ((g.outputs g.drawn % 10 : Nat) : Int) },
        { g with drawn := g.drawn + 1 }) := by
  have hne : ¬ ((y : Int) = st.character_.y_ ∧ (x : Int) = st.character_.x_) := by
    rw [hc]
    rintro ⟨h1, h2⟩
    exact h (by rw [Int.natCast_inj.1 h1, Int.natCast_inj.1 h2])
  simp only [constructBody, hne, if_false, mt19937.next]

theorem foldl_constructBody (H W cy cx : Nat) (cs : List (Nat × Nat)) (hnd : cs.Nodup)
    (hb : ∀ c ∈ cs, c.1 < H ∧ c.2 < W) (st : MazeState) (g : mt19937) (hwf : st.WF H W)
    (hc : st.character_ = { y_ := (cy : Int), x_ := (cx : Int) }) :
    ∃ pts,
      cs.foldl (fun acc c => constructBody acc c.1 c.2) (st, g) =
        ({ st with points_ := pts },
          { g with drawn := g.drawn + (cs.filter fun c => c ≠ (cy, cx)).length }) ∧
      MazeState.WF H W { st with points_ := pts } ∧
      ∀ y x : Nat, MazeState.cell { st with points_ := pts } y x =
        if (y, x) ∈ cs ∧ (y, x) ≠ (cy, cx) then
          some ((g.outputs (g.drawn + indexIn (y, x) (cs.filter fun c => c ≠ (cy, cx))) % 10
            : Nat) : Int)
        else st.cell y x := by
  induction cs generalizing st g with
  | nil => exact ⟨st.points_, rfl, hwf, fun y x => by simp⟩
  | cons c rest ih =>
    obtain ⟨y0, x0⟩ := c
    have hnd1 := (List.nodup_cons.1 hnd).2
    have hnotin := (List.nodup_cons.1 hnd).1
    have hb1 : ∀ c ∈ rest, c.1 < H ∧ c.2 < W := fun c hc1 => hb c (List.mem_cons_of_mem _ hc1)
    have hb0 := hb (y0, x0) (List.mem_cons_self _ _)
    simp only [List.foldl_cons]
    by_cases hag : (y0, x0) = (cy, cx)
    · rw [constructBody_agent hc hag]
      obtain ⟨pts, hfold, hwf1, hcell⟩ := ih hnd1 hb1 st g hwf hc
      have hfil : ((y0, x0) :: rest).filter (fun c => c ≠ (cy, cx)) =
          rest.filter (fun c => c ≠ (cy, cx)) := by
        rw [List.filter_cons_of_neg]
        simp [hag]
      refine ⟨pts, by rw [hfold, hfil], hwf1, ?_⟩
      intro y x
      rw [hcell y x, hfil]
      by_cases hyx : (y, x) ≠ (cy, cx)
      · have hne0 : (y, x) ≠ (y0, x0) := by rw [hag]; exact hyx
        simp [hyx, hne0]
      · simp [hyx]
    · rw [constructBody_point hc hag]
      have hwf0 := setCell_WF hwf y0 x0 ((g.outputs g.drawn % 10 : Nat) : Int) hb0.1
      obtain ⟨pts, hfold, hwf1, hcell⟩ := ih hnd1 hb1 _ { g with drawn := g.drawn + 1 } hwf0 hc
      have hfil : ((y0, x0) :: rest).filter (fun c => c ≠ (cy, cx)) =
          (y0, x0) :: rest.filter (fun c => c ≠ (cy, cx)) := by
        rw [List.filter_cons_of_pos]
        simp [hag]
      refine ⟨pts, ?_, hwf1, ?_⟩
      · rw [hfold, hfil]
        simp only [List.length_cons]
        congr 2
        omega
      · intro y x
        have hc0 := hcell y x
        simp only at hc0
        rw [hc0, hfil]
        by_cases h0 : (y, x) = (y0, x0)
        · have hnr : (y, x) ∉ rest := by rw [h0]; exact hnotin
          have hyl : y0 < st.points_.length := by rw [hwf.1]; exact hb0.1
          have hxl : x0 < (st.points_.getD y0 []).length := by
            have hm : st.points_.getD y0 [] ∈ st.points_ := by
              rw [List.getD_eq_getElem?_getD, List.getElem?_eq_getElem hyl]
              exact List.getElem_mem hyl
            rw [hwf.2 _ hm]
            exact hb0.2
          have hset := setCell_cell st.points_ y0 x0 hyl hxl
            ((g.outputs g.drawn % 10 : Nat) : Int) (y : Int) (x : Int)
          obtain ⟨rfl, rfl⟩ := Prod.mk.inj h0
          have hidx : indexIn (y, x)
              ((y, x) :: rest.filter (fun c => c ≠ (cy, cx))) = 0 := by
            simp [indexIn]
          rw [if_neg (fun h => hnr h.1), if_pos ⟨List.mem_cons_self _ _, hag⟩, hidx,
            Nat.add_zero]
          simp only [MazeState.cell, hset, and_self, if_true]
        · have hmem : (y, x) ∈ (y0, x0) :: rest ↔ (y, x) ∈ rest := by
            simp [h0]
          have hset : MazeState.cell
              { st with points_ := setCell st.points_ y0 x0 ((g.outputs g.drawn % 10 : Nat) : Int) }
              y x = st.cell y x := by
            have hyl : y0 < st.points_.length := by rw [hwf.1]; exact hb0.1
            have hxl : x0 < (st.points_.getD y0 []).length := by
              have hm : st.points_.getD y0 [] ∈ st.points_ := by
                rw [List.getD_eq_getElem?_getD, List.getElem?_eq_getElem hyl]
                exact List.getElem_mem hyl
              rw [hwf.2 _ hm]
              exact hb0.2
            have h1 := setCell_cell st.points_ y0 x0 hyl hxl
              ((g.outputs g.drawn % 10 : Nat) : Int) (y : Int) (x : Int)
            have hne : ¬ ((y : Int) = (y0 : Int) ∧ (x : Int) = (x0 : Int)) := by
              rintro ⟨h2, h3⟩
              exact h0 (by rw [Int.natCast_inj.1 h2, Int.natCast_inj.1 h3])
            rw [if_neg hne] at h1
            exact h1
          have hidx : indexIn (y, x)
              ((y0, x0) :: rest.filter (fun c => c ≠ (cy, cx))) =
              indexIn (y, x) (rest.filter (fun c => c ≠ (cy, cx))) + 1 := by
            rw [indexIn, if_neg (Ne.symm h0)]
          rw [hset, hidx]
          by_cases hcond : (y, x) ∈ rest ∧ (y, x) ≠ (cy, cx)
          · rw [if_pos hcond, if_pos ⟨hmem.2 hcond.1, hcond.2⟩]
            congr 4
            omega
          · rw [if_neg hcond, if_neg (fun h => hcond ⟨hmem.1 h.1, h.2⟩)]

theorem default_WF (H W : Nat) : (MazeState.default H W).WF H W := by
  refine ⟨by simp [MazeState.default], ?_⟩
  intro row hrow
  simp only [MazeState.default] at hrow
  rw [(List.mem_replicate.1 hrow).2, List.length_replicate]

theorem construct_spec (H W : Nat) (hH : 0 < H) (hW : 0 < W) (r : Nat → Nat) :
    ∃ pts,
      MazeState.construct H W { outputs := r, drawn := 0 } =
        ({ points_ := pts, turn_ := 0,
           character_ := { y_ := ((r 0 % H : Nat) : Int), x_ := ((r 1 % W : Nat) : Int) },
           game_score_ := 0, evaluated_score_ := 0 },
          { outputs := r, drawn := H * W + 1 }) ∧
      MazeState.WF H W
        { points_ := pts, turn_ := 0,
          character_ := { y_ := ((r 0 % H : Nat) : Int), x_ := ((r 1 % W : Nat) : Int) },
          game_score_ := 0, evaluated_score_ := 0 } ∧
      ∀ y x : Nat, y < H → x < W →
        MazeState.cell
          { points_ := pts, turn_ := 0,
            character_ := { y_ := ((r 0 % H : Nat) : Int), x_ := ((r 1 % W : Nat) : Int) },
            game_score_ := 0, evaluated_score_ := 0 } y x =
          if (y, x) ≠ (r 0 % H, r 1 % W) then
            some ((r (2 + indexIn (y, x) (pointCells H W (r 0 % H, r 1 % W))) % 10 : Nat) : Int)
          else some 0 := by
  have hy := Nat.mod_lt (r 0) hH
  have hx := Nat.mod_lt (r 1) hW
  have hwf0 : MazeState.WF H W { MazeState.default H W with
      character_ := { y_ := ((r 0 % H : Nat) : Int), x_ := ((r 1 % W : Nat) : Int) } } :=
    default_WF H W
  obtain ⟨pts, hfold, hwf, hcell⟩ := foldl_constructBody H W (r 0 % H) (r 1 % W)
    (rowMajor H W) (nodup_rowMajor H W) (fun c hc => (mem_rowMajor H W c).1 hc)
    { MazeState.default H W with
      character_ := { y_ := ((r 0 % H : Nat) : Int), x_ := ((r 1 % W : Nat) : Int) } }
    { outputs := r, drawn := 0 + 2 } hwf0 rfl
  have hlen := length_pointCells H W (r 0 % H, r 1 % W) hy hx
  unfold pointCells at hlen
  have hHW : 1 ≤ H * W := Nat.mul_pos hH hW
  refine ⟨pts, ?_, hwf, ?_⟩
  · rw [construct_eq_foldl, hfold, hlen]
    simp only [MazeState.default, Prod.mk.injEq, mt19937.mk.injEq, true_and]
    omega
  · intro y x hy1 hx1
    have h := hcell y x
    simp only [MazeState.default] at h
    simp only [h]
    have hmem : (y, x) ∈ rowMajor H W := (mem_rowMajor H W (y, x)).2 ⟨hy1, hx1⟩
    by_cases hag : (y, x) = (r 0 % H, r 1 % W)
    · rw [if_neg (fun hh => hh.2 hag), if_neg (fun hh => hh hag)]
      simp [MazeState.cell, subscript, hy1, hx1]
    · rw [if_pos ⟨hmem, hag⟩, if_pos hag]
      rfl

theorem indexIn_lt_length {c : Nat × Nat} {l : List (Nat × Nat)} (h : c ∈ l) :
    indexIn c l < l.length := by
  induction l with
  | nil => cases h
  | cons d rest ih =>
    by_cases hd : d = c
    · simp [indexIn, hd]
    · rcases List.mem_cons.1 h with h1 | h1
      · exact absurd h1.symm hd
      · simp only [indexIn, if_neg hd, List.length_cons]
        exact Nat.succ_lt_succ (ih h1)

theorem indexIn_get {l : List (Nat × Nat)} (hnd : l.Nodup) (k : Nat) (hk : k < l.length) :
    indexIn (l.get ⟨k, hk⟩) l = k := by
  induction l generalizing k with
  | nil => cases hk
  | cons d rest ih =>
    cases k with
    | zero => simp [indexIn]
    | succ n =>
      have hk1 : n < rest.length := Nat.lt_of_succ_lt_succ hk
      have hne : d ≠ rest.get ⟨n, hk1⟩ := by
        intro hd
        exact (List.nodup_cons.1 hnd).1 (hd ▸ List.get_mem rest n hk1)
      simp only [List.get_cons_succ, indexIn, if_neg hne]
      rw [ih (List.nodup_cons.1 hnd).2 n hk1]

theorem cell_natCast (s : MazeState) (y x : Nat) :
    s.cell y x = (s.points_[y]?).bind fun row => row[x]? := by
  simp [MazeState.cell, subscript]

theorem points_ext {H W : Nat} {s t : MazeState} (hs : s.WF H W) (ht : t.WF H W)
    (h : ∀ y x : Nat, y < H → x < W → s.cell y x = t.cell y x) : s.points_ = t.points_ := by
  apply List.ext_getElem?
  intro y
  by_cases hy : y < H
  · have hys : y < s.points_.length := by rw [hs.1]; exact hy
    have hyt : y < t.points_.length := by rw [ht.1]; exact hy
    rw [List.getElem?_eq_getElem hys, List.getElem?_eq_getElem hyt]
    congr 1
    apply List.ext_getElem?
    intro x
    by_cases hx : x < W
    · have h1 := h y x hy hx
      rw [cell_natCast, cell_natCast, List.getElem?_eq_getElem hys,
        List.getElem?_eq_getElem hyt] at h1
      exact h1
    · have h1 : (s.points_[y]).length = W := hs.2 _ (List.getElem_mem hys)
      have h2 : (t.points_[y]).length = W := ht.2 _ (List.getElem_mem hyt)
      rw [List.getElem?_eq_none (by omega), List.getElem?_eq_none (by omega)]
  · rw [List.getElem?_eq_none (by rw [hs.1]; omega),
      List.getElem?_eq_none (by rw [ht.1]; omega)]

theorem ofOutputs_congr (H W : Nat) (hH : 0 < H) (hW : 0 < W) (r r2 : Nat → Nat)
    (hagree : ∀ i, i < H * W + 1 → r2 i = r i) :
    MazeState.ofOutputs H W r2 = MazeState.ofOutputs H W r := by
  obtain ⟨pts, hc, hwf, hcell⟩ := construct_spec H W hH hW r
  obtain ⟨pts2, hc2, hwf2, hcell2⟩ := construct_spec H W hH hW r2
  have hHW : 1 ≤ H * W := Nat.mul_pos hH hW
  have e0 : r2 0 = r 0 := hagree 0 (by omega)
  have e1 : r2 1 = r 1 := hagree 1 (by omega)
  rw [e0, e1] at hc2 hwf2 hcell2
  have hpts : pts2 = pts := by
    refine points_ext hwf2 hwf ?_
    intro y x hy hx
    rw [hcell y x hy hx, hcell2 y x hy hx]
    by_cases hag : (y, x) ≠ (r 0 % H, r 1 % W)
    · rw [if_pos hag, if_pos hag]
      have hmem : (y, x) ∈ pointCells H W (r 0 % H, r 1 % W) := by
        unfold pointCells
        rw [List.mem_filter]
        exact ⟨(mem_rowMajor H W (y, x)).2 ⟨hy, hx⟩, decide_eq_true hag⟩
      have hlt := indexIn_lt_length hmem
      rw [length_pointCells H W _ (Nat.mod_lt _ hH) (Nat.mod_lt _ hW)] at hlt
      rw [hagree _ (by omega)]
    · rw [if_neg hag, if_neg hag]
  simp only [MazeState.ofOutputs, hc, hc2, hpts]

/-- C5: generation consumes the generator outputs `r 0, r 1, ...` in the documented
order: agent row `r 0 mod H`, agent column `r 1 mod W`, then the `k`-th cell of the
row-major sweep that is not the agent's cell receives `r (2+k) mod 10`; these are
`H*W - 1` cells, so `H*W + 1` outputs are drawn; `turn_` and `game_score_` are 0;
the state is determined by the first `H*W + 1` outputs. -/
theorem construct_draw_order (H W : Nat) (hH : 0 < H) (hW : 0 < W) (r : Nat → Nat) :
    (MazeState.ofOutputs H W r).character_ =
      { y_ := ((r 0 % H : Nat) : Int), x_ := ((r 1 % W : Nat) : Int) } ∧
    (∀ k (hk : k < (pointCells H W (r 0 % H, r 1 % W)).length),
      (MazeState.ofOutputs H W r).cell
          (((pointCells H W (r 0 % H, r 1 % W)).get ⟨k, hk⟩).1 : Nat)
          (((pointCells H W (r 0 % H, r 1 % W)).get ⟨k, hk⟩).2 : Nat) =
        some ((r (2 + k) % 10 : Nat) : Int)) ∧
    (pointCells H W (r 0 % H, r 1 % W)).length = H * W - 1 ∧
    (MazeState.construct H W { outputs := r, drawn := 0 }).2 =
      { outputs := r, drawn := H * W + 1 } ∧
    (MazeState.ofOutputs H W r).turn_ = 0 ∧
    (MazeState.ofOutputs H W r).game_score_ = 0 ∧
    (∀ r2 : Nat → Nat, (∀ i, i < H * W + 1 → r2 i = r i) →
      MazeState.ofOutputs H W r2 = MazeState.ofOutputs H W r) := by
  obtain ⟨pts, hc, hwf, hcell⟩ := construct_spec H W hH hW r
  refine ⟨by simp [MazeState.ofOutputs, hc], ?_,
    length_pointCells H W _ (Nat.mod_lt _ hH) (Nat.mod_lt _ hW), by rw [hc],
    by simp [MazeState.ofOutputs, hc], by simp [MazeState.ofOutputs, hc],
    fun r2 h2 => ofOutputs_congr H W hH hW r r2 h2⟩
  intro k hk
  have hnd : (pointCells H W (r 0 % H, r 1 % W)).Nodup :=
    (nodup_rowMajor H W).filter _
  have hmem := List.get_mem (pointCells H W (r 0 % H, r 1 % W)) k hk
  have hmem2 := List.mem_filter.1 hmem
  have hb := (mem_rowMajor H W _).1 hmem2.1
  have hne : (pointCells H W (r 0 % H, r 1 % W)).get ⟨k, hk⟩ ≠ (r 0 % H, r 1 % W) :=
    of_decide_eq_true hmem2.2
  have hidx := indexIn_get hnd k hk
  have h := hcell _ _ hb.1 hb.2
  rw [if_pos hne, hidx] at h
  simp only [MazeState.ofOutputs, hc]
  exact h

/-- With the outputs `7 * i + 5` on the 3x4 grid: agent at (2,0), 13 outputs drawn. -/
theorem construct_draw_order_witness :
    0 < H ∧ 0 < W ∧
    (MazeState.ofOutputs H W sampleOutputs).points_ =
      [[9, 6, 3, 0], [7, 4, 1, 8], [0, 5, 2, 9]] ∧
    ((MazeState.ofOutputs H W sampleOutputs).character_ =
      { y_ := ((sampleOutputs 0 % H : Nat) : Int), x_ := ((sampleOutputs 1 % W : Nat) : Int) } ∧
    (∀ k (hk : k < (pointCells H W (sampleOutputs 0 % H, sampleOutputs 1 % W)).length),
      (MazeState.ofOutputs H W sampleOutputs).cell
          (((pointCells H W (sampleOutputs 0 % H, sampleOutputs 1 % W)).get ⟨k, hk⟩).1 : Nat)
          (((pointCells H W (sampleOutputs 0 % H, sampleOutputs 1 % W)).get ⟨k, hk⟩).2 : Nat) =
        some ((sampleOutputs (2 + k) % 10 : Nat) : Int)) ∧
    (pointCells H W (sampleOutputs 0 % H, sampleOutputs 1 % W)).length = H * W - 1 ∧
    (MazeState.construct H W { outputs := sampleOutputs, drawn := 0 }).2 =
      { outputs := sampleOutputs, drawn := H * W + 1 } ∧
    (MazeState.ofOutputs H W sampleOutputs).turn_ = 0 ∧
    (MazeState.ofOutputs H W sampleOutputs).game_score_ = 0 ∧
    (∀ r2 : Nat → Nat, (∀ i, i < H * W + 1 → r2 i = sampleOutputs i) →
      MazeState.ofOutputs H W r2 = MazeState.ofOutputs H W sampleOutputs)) :=
  ⟨by decide, by decide, by decide,
    construct_draw_order H W (by decide) (by decide) sampleOutputs⟩

/-- C6: in the state produced by the constructor, for every output sequence, the
agent stands in the grid on a cell holding 0, the board has the `H`x`W` shape and
every cell of the grid holds exactly one value. -/
theorem agent_cell_point_free (H W : Nat) (hH : 0 < H) (hW : 0 < W) (r : Nat → Nat) :
    (MazeState.ofOutputs H W r).inBounds H W ∧
    (MazeState.ofOutputs H W r).cell (MazeState.ofOutputs H W r).character_.y_
      (MazeState.ofOutputs H W r).character_.x_ = some 0 ∧
    (MazeState.ofOutputs H W r).WF H W ∧
    (∀ y x : Nat, y < H → x < W → ∃! v, (MazeState.ofOutputs H W r).cell y x = some v) := by
  obtain ⟨pts, hc, hwf, hcell⟩ := construct_spec H W hH hW r
  have hy := Nat.mod_lt (r 0) hH
  have hx := Nat.mod_lt (r 1) hW
  simp only [MazeState.ofOutputs, hc]
  refine ⟨?_, ?_, hwf, ?_⟩
  · simp only [MazeState.inBounds]
    omega
  · have h := hcell (r 0 % H) (r 1 % W) hy hx
    rw [if_neg (fun hh => hh rfl)] at h
    exact h
  · intro y x hy1 hx1
    obtain ⟨_, v, _, _, hv⟩ := cell_of_bounds hwf (y := (y : Int)) (x := (x : Int))
      (by omega) (by omega) (by omega) (by omega)
    refine ⟨v, hv, ?_⟩
    intro w hw
    rw [hv] at hw
    exact (Option.some.inj hw).symm

/-- With the outputs `7 * i + 5` on the 3x4 grid the agent's cell (2,0) holds 0. -/
theorem agent_cell_point_free_witness :
    0 < H ∧ 0 < W ∧
    (MazeState.ofOutputs H W sampleOutputs).character_ = { y_ := 2, x_ := 0 } ∧
    (MazeState.ofOutputs H W sampleOutputs).cell 2 0 = some 0 ∧
    (MazeState.ofOutputs H W sampleOutputs).cell
      (MazeState.ofOutputs H W sampleOutputs).character_.y_
      (MazeState.ofOutputs H W sampleOutputs).character_.x_ = some 0 :=
  ⟨by decide, by decide, by decide, by decide,
    (agent_cell_point_free H W (by decide) (by decide) sampleOutputs).2.1⟩

theorem ofOutputs_facts (H W : Nat) (hH : 0 < H) (hW : 0 < W) (r : Nat → Nat) :
    (MazeState.ofOutputs H W r).WF H W ∧ (MazeState.ofOutputs H W r).inBounds H W ∧
    (MazeState.ofOutputs H W r).turn_ = 0 ∧ (MazeState.ofOutputs H W r).game_score_ = 0 ∧
    (MazeState.ofOutputs H W r).cell (MazeState.ofOutputs H W r).character_.y_
      (MazeState.ofOutputs H W r).character_.x_ = some 0 ∧
    (∀ y x : Nat, y < H → x < W → ∃ v : Nat, v ≤ 9 ∧
      (MazeState.ofOutputs H W r).cell y x = some (v : Int)) := by
  obtain ⟨pts, hc, hwf, hcell⟩ := construct_spec H W hH hW r
  have hy := Nat.mod_lt (r 0) hH
  have hx := Nat.mod_lt (r 1) hW
  simp only [MazeState.ofOutputs, hc]
  refine ⟨hwf, ?_, trivial, trivial, ?_, ?_⟩
  · simp only [MazeState.inBounds]
    omega
  · have h := hcell (r 0 % H) (r 1 % W) hy hx
    rw [if_neg (fun hh => hh rfl)] at h
    exact h
  · intro y x hy1 hx1
    have h := hcell y x hy1 hx1
    by_cases hag : (y, x) ≠ (r 0 % H, r 1 % W)
    · rw [if_pos hag] at h
      exact ⟨_, Nat.le_of_lt_succ (Nat.mod_lt _ (by decide)), h⟩
    · rw [if_neg hag] at h
      exact ⟨0, by decide, h⟩

/-- C11: for every output sequence of the seeded generator the constructed agent
position lies in `[0,H) x [0,W)`, and it still does after any finite sequence of
advances whose actions are each taken from `legalActions()` of the current state. -/
theorem agent_stays_on_board (H W : Nat) (hH : 0 < H) (hW : 0 < W) (r : Nat → Nat) :
    (MazeState.ofOutputs H W r).inBounds H W ∧
    ∀ (actions : List Int) (sk : MazeState),
      legalRun H W (MazeState.ofOutputs H W r) actions = some sk → sk.inBounds H W := by
  obtain ⟨hwf, hin, _⟩ := ofOutputs_facts H W hH hW r
  exact ⟨hin, fun actions sk hrun => legalRun_inBounds hwf hin hrun⟩

/-- From the board generated by the outputs `7 * i + 5`, the agent is at (2,2) in
the 3x4 grid after the legal walk north, east, east, south. -/
theorem agent_stays_on_board_witness :
    0 < H ∧ 0 < W ∧
    (legalRun H W (MazeState.ofOutputs H W sampleOutputs) [3, 0, 0, 2]).map
      (fun sk => sk.character_) = some { y_ := 2, x_ := 2 } ∧
    ((legalRun H W (MazeState.ofOutputs H W sampleOutputs) [3, 0, 0, 2]).get
      (by decide)).inBounds H W :=
  ⟨by decide, by decide, by decide,
    (agent_stays_on_board H W (by decide) (by decide) sampleOutputs).2 [3, 0, 0, 2] _
      (Option.some_get _).symm⟩

/-- C12 as stated fails: on the 1x1 grid (`H = 1`, `W = 1`) the agent on the only
cell has no legal action. -/
theorem legal_exist_counterexample :
    ¬ ∀ (H W : Nat) (s : MazeState), 1 ≤ H → 1 ≤ W → s.inBounds H W →
        s.legalActions H W ≠ [] := by
  intro h
  exact h 1 1 cornerState (by decide) (by decide) (by decide) (by decide)

theorem legalActions_ne_nil_iff {H W : Nat} {s : MazeState} (hin : s.inBounds H W) :
    s.legalActions H W ≠ [] ↔ 2 ≤ H ∨ 2 ≤ W := by
  obtain ⟨h1, h2, h3, h4⟩ := hin
  constructor
  · intro hne
    obtain ⟨a, ha⟩ := List.exists_mem_of_ne_nil _ hne
    rw [mem_legalActions] at ha
    simp only [MazeState.destInGrid] at ha
    omega
  · intro hHW
    have hex : ∃ a : Int, a ∈ s.legalActions H W := by
      rcases hHW with hH | hW
      · by_cases hy : s.character_.y_ + 1 < H
        · exact ⟨2, (mem_legalActions H W s 2).2 (Or.inr (Or.inr (Or.inl
            ⟨rfl, by unfold MazeState.destInGrid; omega⟩)))⟩
        · exact ⟨3, (mem_legalActions H W s 3).2 (Or.inr (Or.inr (Or.inr
            ⟨rfl, by unfold MazeState.destInGrid; omega⟩)))⟩
      · by_cases hx : s.character_.x_ + 1 < W
        · exact ⟨0, (mem_legalActions H W s 0).2 (Or.inl
            ⟨rfl, by unfold MazeState.destInGrid; omega⟩)⟩
        · exact ⟨1, (mem_legalActions H W s 1).2 (Or.inr (Or.inl
            ⟨rfl, by unfold MazeState.destInGrid; omega⟩))⟩
    obtain ⟨a, ha⟩ := hex
    exact List.ne_nil_of_mem ha

/-- C12 amended: for all `H >= 1`, `W >= 1` and every agent position in
`[0,H) x [0,W)`, `legalActions()` is non-empty exactly when the grid has more than
one cell (`H >= 2` or `W >= 2`); this covers the 3x4 and 3x3 grids of the code. -/
theorem legal_exist_amended (H W : Nat) (s : MazeState) (hH : 1 ≤ H) (hW : 1 ≤ W)
    (hin : s.inBounds H W) :
    (s.legalActions H W ≠ [] ↔ 2 ≤ H ∨ 2 ≤ W) ∧
    (∀ t : MazeState, t.inBounds 3 4 → t.legalActions 3 4 ≠ []) ∧
    (∀ t : MazeState, t.inBounds 3 3 → t.legalActions 3 3 ≠ []) := by
  have _ := hH
  have _ := hW
  exact ⟨legalActions_ne_nil_iff hin,
    fun t ht => (legalActions_ne_nil_iff ht).2 (Or.inl (by decide)),
    fun t ht => (legalActions_ne_nil_iff ht).2 (Or.inl (by decide))⟩

/-- On the 3x4 grid the sample state has legal actions. -/
theorem legal_exist_amended_witness :
    1 ≤ H ∧ 1 ≤ W ∧ sampleState.inBounds H W ∧ sampleState.legalActions H W ≠ [] :=
  ⟨by decide, by decide, by decide,
    ((legal_exist_amended H W sampleState (by decide) (by decide) (by decide)).1).2
      (Or.inl (by decide))⟩

theorem legalRun_score_nonneg {H W : Nat} (hH : 0 < H) (hW : 0 < W) {r : Nat → Nat}
    {actions : List Int} {sk : MazeState}
    (hrun : legalRun H W (MazeState.ofOutputs H W r) actions = some sk) :
    0 ≤ sk.game_score_ := by
  obtain ⟨_, _, _, hs, _⟩ := ofOutputs_facts H W hH hW r
  have := legalRun_score_le hrun
  omega

/-- C13: in every state reachable from generation by legal advances, each legal
successor's `evaluated_score_` is strictly above the sentinel `-INF = -100000000`,
so the first legal action becomes the incumbent of the greedy loop, and when legal
actions exist `greedyAction` returns one of them (the assertion holds). -/
theorem greedy_returns (H W : Nat) (hH : 0 < H) (hW : 0 < W) (r : Nat → Nat)
    (actions : List Int) (sk : MazeState)
    (hrun : legalRun H W (MazeState.ofOutputs H W r) actions = some sk) :
    -INF = -100000000 ∧
    (∀ a ∈ sk.legalActions H W, ∃ v, candidateScore sk a = some v ∧ -INF < v) ∧
    (∀ a rest, sk.legalActions H W = a :: rest →
      ∃ v, greedyStep sk (-INF, -1) a = some (v, a)) ∧
    (sk.legalActions H W ≠ [] →
      ∃ a, greedyAction H W sk = some a ∧ a ∈ sk.legalActions H W) := by
  obtain ⟨hwf0, _⟩ := ofOutputs_facts H W hH hW r
  have hwf := legalRun_WF hwf0 hrun
  have hs := legalRun_score_nonneg hH hW hrun
  have hcand : ∀ a ∈ sk.legalActions H W, ∃ v, candidateScore sk a = some v ∧ -INF < v := by
    intro a ha
    obtain ⟨v, hv, hle⟩ := candidateScore_legal hwf ha
    exact ⟨v, hv, by unfold INF; omega⟩
  refine ⟨rfl, hcand, ?_, ?_⟩
  · intro a rest hl
    obtain ⟨v, hv, hlt⟩ := hcand a (by rw [hl]; exact List.mem_cons_self a rest)
    refine ⟨v, ?_⟩
    rw [greedyStep_eq hv]
    simp [hlt]
  · intro hne
    obtain ⟨a, _, ha, hmem, _⟩ := greedyAction_spec hwf (by unfold INF; omega) hne
    exact ⟨a, ha, hmem⟩

/-- After the legal walk north, east from the board generated by the outputs
`7 * i + 5`, greedy returns an action. -/
theorem greedy_returns_witness :
    0 < H ∧ 0 < W ∧
    (legalRun H W (MazeState.ofOutputs H W sampleOutputs) [3, 0]).isSome = true ∧
    (((legalRun H W (MazeState.ofOutputs H W sampleOutputs) [3, 0]).get
        (by decide)).legalActions H W ≠ [] →
      ∃ a, greedyAction H W
          ((legalRun H W (MazeState.ofOutputs H W sampleOutputs) [3, 0]).get (by decide))
          = some a ∧
        a ∈ ((legalRun H W (MazeState.ofOutputs H W sampleOutputs) [3, 0]).get
          (by decide)).legalActions H W) :=
  ⟨by decide, by decide, by decide,
    (greedy_returns H W (by decide) (by decide) sampleOutputs [3, 0] _
      (Option.some_get _).symm).2.2.2⟩

/-- C15: for a state whose `legalActions()` list `L` is non-empty and every generator
output `r`, `randomAction` returns `L[r mod n]` with `n` the length of `L`, a member
of `legalActions()`, and leaves the shared generator advanced by exactly one draw;
the state is only read. -/
theorem random_action_spec (H W : Nat) (s : MazeState) (g : mt19937)
    (hne : s.legalActions H W ≠ []) :
    ∃ a, (s.legalActions H W)[g.outputs g.drawn % (s.legalActions H W).length]? = some a ∧
      a ∈ s.legalActions H W ∧
      randomAction H W s g = some (a, { outputs := g.outputs, drawn := g.drawn + 1 }) := by
  have hlen : 0 < (s.legalActions H W).length := List.length_pos.2 hne
  have hlt := Nat.mod_lt (g.outputs g.drawn) hlen
  refine ⟨(s.legalActions H W)[g.outputs g.drawn % (s.legalActions H W).length],
    List.getElem?_eq_getElem hlt, List.getElem_mem hlt, ?_⟩
  have h0 : (s.legalActions H W).length ≠ 0 := by omega
  simp [randomAction, umod, mt19937.next, h0, List.getElem?_eq_getElem hlt]

/-- On the sample board the first output 5 of `7 * i + 5` selects `L[5 mod 4] = 1`. -/
theorem random_action_spec_witness :
    sampleState.legalActions H W ≠ [] ∧
    (randomAction H W sampleState { outputs := sampleOutputs, drawn := 0 }).map
      (fun p => (p.1, p.2.drawn)) = some (1, 1) ∧
    ∃ a, (sampleState.legalActions H W)[sampleOutputs 0 %
        (sampleState.legalActions H W).length]? = some a ∧
      a ∈ sampleState.legalActions H W ∧
      randomAction H W sampleState { outputs := sampleOutputs, drawn := 0 } =
        some (a, { outputs := sampleOutputs, drawn := 0 + 1 }) :=
  ⟨by decide, by decide,
    random_action_spec H W sampleState { outputs := sampleOutputs, drawn := 0 } (by decide)⟩

theorem sum_set_int (l : List Int) (i : Nat) (v old : Int) (h : l[i]? = some old) :
    (l.set i v).sum = l.sum - old + v := by
  induction l generalizing i with
  | nil => simp at h
  | cons d rest ih =>
    cases i with
    | zero =>
      simp only [List.getElem?_cons_zero, Option.some.injEq] at h
      simp only [List.set_cons_zero, List.sum_cons, h]
      omega
    | succ n =>
      simp only [List.getElem?_cons_succ] at h
      simp only [List.set_cons_succ, List.sum_cons, ih n h]
      omega

theorem cellSum_set (pts : List (List Int)) (y : Nat) (row row1 : List Int)
    (h : pts[y]? = some row) :
    ((pts.set y row1).map List.sum).sum = (pts.map List.sum).sum - row.sum + row1.sum := by
  rw [List.map_set]
  exact sum_set_int _ y _ _ (by rw [List.getElem?_map, h]; rfl)

theorem moved_cellSum {s : MazeState} {ay ax : Int} {row : List Int} {point : Int}
    (hr : subscript s.points_ (s.character_.y_ + ay) = some row)
    (hp : subscript row (s.character_.x_ + ax) = some point) :
    (s.moved ay ax row point).game_score_ + (s.moved ay ax row point).cellSum =
      s.game_score_ + s.cellSum := by
  by_cases h : point > 0
  · rw [subscript_eq_some_iff] at hr hp
    simp only [MazeState.moved, MazeState.cellSum, h, if_true]
    rw [cellSum_set _ _ row _ hr.2, sum_set_int _ _ 0 point hp.2]
    omega
  · simp [MazeState.moved, MazeState.cellSum, h]

theorem advance_cellSum {s s1 : MazeState} {a : Int} (h : s.advance a = some s1) :
    s1.game_score_ + s1.cellSum = s.game_score_ + s.cellSum := by
  obtain ⟨ay, ax, row, point, _, _, hr, hp, rfl⟩ := advance_inv h
  exact moved_cellSum hr hp

theorem legalRun_cellSum {H W : Nat} {s s1 : MazeState} {actions : List Int}
    (h : legalRun H W s actions = some s1) :
    s1.game_score_ + s1.cellSum = s.game_score_ + s.cellSum := by
  induction actions generalizing s with
  | nil =>
    simp only [legalRun, Option.some.injEq] at h
    rw [← h]
  | cons a rest ih =>
    obtain ⟨s2, _, hadv, hrest⟩ := legalRun_cons_some h
    rw [ih hrest, advance_cellSum hadv]

theorem mem_cell {H W : Nat} {s : MazeState} (hwf : s.WF H W) {row : List Int} {v : Int}
    (hrow : row ∈ s.points_) (hv : v ∈ row) :
    ∃ y x : Nat, y < H ∧ x < W ∧ s.cell y x = some v := by
  obtain ⟨y, hy, rfl⟩ := List.getElem_of_mem hrow
  obtain ⟨x, hx, rfl⟩ := List.getElem_of_mem hv
  have hl := hwf.2 _ hrow
  refine ⟨y, x, by rw [← hwf.1]; exact hy, by rw [← hl]; exact hx, ?_⟩
  rw [cell_natCast, List.getElem?_eq_getElem hy]
  simp [List.getElem?_eq_getElem hx]

theorem ofOutputs_cellsInRange (H W : Nat) (hH : 0 < H) (hW : 0 < W) (r : Nat → Nat) :
    (MazeState.ofOutputs H W r).cellsInRange := by
  obtain ⟨hwf, _, _, _, _, hcells⟩ := ofOutputs_facts H W hH hW r
  intro row hrow v hv
  obtain ⟨y, x, hy, hx, hc⟩ := mem_cell hwf hrow hv
  obtain ⟨n, hn, hc2⟩ := hcells y x hy hx
  rw [hc] at hc2
  have := Option.some.inj hc2
  omega

theorem cellsInRange_nonNeg {s : MazeState} (h : s.cellsInRange) : s.nonNegCells :=
  fun row hrow v hv => (h row hrow v hv).1

theorem moved_cellsInRange {s : MazeState} (hr9 : s.cellsInRange) {ay ax : Int}
    {row : List Int} (point : Int)
    (hr : subscript s.points_ (s.character_.y_ + ay) = some row) :
    (s.moved ay ax row point).cellsInRange := by
  by_cases h : point > 0
  · intro r hmem v hv
    simp only [MazeState.moved, h, if_true] at hmem
    rcases List.mem_or_eq_of_mem_set hmem with h1 | h1
    · exact hr9 r h1 v hv
    · rw [h1] at hv
      rcases List.mem_or_eq_of_mem_set hv with h2 | h2
      · exact hr9 row (subscript_mem hr) v h2
      · omega
  · simpa [MazeState.cellsInRange, MazeState.moved, h] using hr9

theorem advance_cellsInRange {s s1 : MazeState} {a : Int} (hr9 : s.cellsInRange)
    (h : s.advance a = some s1) : s1.cellsInRange := by
  obtain ⟨ay, ax, row, point, _, _, hr, _, rfl⟩ := advance_inv h
  exact moved_cellsInRange hr9 point hr

theorem legalRun_cellsInRange {H W : Nat} {s s1 : MazeState} {actions : List Int}
    (hr9 : s.cellsInRange) (h : legalRun H W s actions = some s1) : s1.cellsInRange := by
  induction actions generalizing s with
  | nil =>
    simp only [legalRun, Option.some.injEq] at h
    exact h ▸ hr9
  | cons a rest ih =>
    obtain ⟨s2, _, hadv, hrest⟩ := legalRun_cons_some h
    exact ih (advance_cellsInRange hr9 hadv) hrest

theorem legalRun_agent_zero {H W : Nat} {s s1 : MazeState} {actions : List Int}
    (hnn : s.nonNegCells) (hz : s.cell s.character_.y_ s.character_.x_ = some 0)
    (h : legalRun H W s actions = some s1) :
    s1.cell s1.character_.y_ s1.character_.x_ = some 0 := by
  induction actions generalizing s with
  | nil =>
    simp only [legalRun, Option.some.injEq] at h
    exact h ▸ hz
  | cons a rest ih =>
    obtain ⟨s2, _, hadv, hrest⟩ := legalRun_cons_some h
    exact ih (advance_nonNegCells hnn hadv) (advance_landing_zero hnn hadv) hrest

/-- C19: in every state reachable from the constructed state by legal advances the
cell under the agent holds 0; so stepping off it and straight back onto it (two
advances returning to the same position) leaves the score of the first step
unchanged by the second. -/
theorem agent_on_empty_cell (H W : Nat) (hH : 0 < H) (hW : 0 < W) (r : Nat → Nat)
    (actions : List Int) (sk : MazeState)
    (hrun : legalRun H W (MazeState.ofOutputs H W r) actions = some sk) :
    sk.cell sk.character_.y_ sk.character_.x_ = some 0 ∧
    ∀ (a b : Int) (s1 s2 : MazeState), a ∈ sk.legalActions H W → sk.advance a = some s1 →
      b ∈ s1.legalActions H W → s1.advance b = some s2 →
      s2.character_ = sk.character_ → s2.game_score_ = s1.game_score_ := by
  obtain ⟨_, _, _, _, hz0, _⟩ := ofOutputs_facts H W hH hW r
  have hnn0 := cellsInRange_nonNeg (ofOutputs_cellsInRange H W hH hW r)
  have hz := legalRun_agent_zero hnn0 hz0 hrun
  refine ⟨hz, ?_⟩
  intro a b s1 s2 _ ha _ hb hback
  have hz1 := advance_cell_zero ha hz
  rw [← hback] at hz1
  exact advance_onto_zero hb hz1

/-- From the board generated by the outputs `7 * i + 5`: after north, east the agent
stands on a 0, and east then west back onto it leaves the score at 12. -/
theorem agent_on_empty_cell_witness :
    0 < H ∧ 0 < W ∧
    (legalRun H W (MazeState.ofOutputs H W sampleOutputs) [3, 0]).map
      (fun sk => (sk.character_, sk.cell sk.character_.y_ sk.character_.x_))
      = some ({ y_ := 1, x_ := 1 }, some 0) ∧
    (legalRun H W (MazeState.ofOutputs H W sampleOutputs) [3, 0, 0]).map
      (fun sk => sk.game_score_) = some 12 ∧
    (legalRun H W (MazeState.ofOutputs H W sampleOutputs) [3, 0, 0, 1]).map
      (fun sk => (sk.character_, sk.game_score_)) = some ({ y_ := 1, x_ := 1 }, 12) ∧
    ((legalRun H W (MazeState.ofOutputs H W sampleOutputs) [3, 0]).get (by decide)).cell
      ((legalRun H W (MazeState.ofOutputs H W sampleOutputs) [3, 0]).get
        (by decide)).character_.y_
      ((legalRun H W (MazeState.ofOutputs H W sampleOutputs) [3, 0]).get
        (by decide)).character_.x_ = some 0 :=
  ⟨by decide, by decide, by decide, by decide, by decide,
    (agent_on_empty_cell H W (by decide) (by decide) sampleOutputs [3, 0] _
      (Option.some_get _).symm).1⟩

theorem sum_le_nine (l : List Int) (h : ∀ v ∈ l, v ≤ 9) : l.sum ≤ 9 * l.length := by
  induction l with
  | nil => simp
  | cons d rest ih =>
    have h1 := h d (List.mem_cons_self d rest)
    have h2 := ih (fun v hv => h v (List.mem_cons_of_mem d hv))
    simp only [List.sum_cons, List.length_cons]
    push_cast
    omega

theorem sum_nonneg_int (l : List Int) (h : ∀ v ∈ l, 0 ≤ v) : 0 ≤ l.sum := by
  induction l with
  | nil => simp
  | cons d rest ih =>
    have h1 := h d (List.mem_cons_self d rest)
    have h2 := ih (fun v hv => h v (List.mem_cons_of_mem d hv))
    simp only [List.sum_cons]
    omega

theorem rows_sum_le (W : Nat) (pts : List (List Int))
    (h : ∀ row ∈ pts, row.length = W ∧ ∀ v ∈ row, v ≤ 9) :
    (pts.map List.sum).sum ≤ 9 * (pts.length * W : Nat) := by
  induction pts with
  | nil => simp
  | cons row rest ih =>
    have h1 := h row (List.mem_cons_self row rest)
    have h2 := ih (fun r hr => h r (List.mem_cons_of_mem row hr))
    have h3 := sum_le_nine row h1.2
    rw [h1.1] at h3
    simp only [List.map_cons, List.sum_cons, List.length_cons]
    have e : ((rest.length + 1) * W : Nat) = rest.length * W + W := by ring
    rw [e]
    push_cast at h2 ⊢
    omega

theorem cellSum_nonneg {s : MazeState} (hnn : s.nonNegCells) : 0 ≤ s.cellSum := by
  unfold MazeState.cellSum
  apply sum_nonneg_int
  intro v hv
  obtain ⟨row, hrow, rfl⟩ := List.mem_map.1 hv
  exact sum_nonneg_int row (hnn row hrow)

theorem cellSum_le_of_zero_cell {H W : Nat} {s : MazeState} (hwf : s.WF H W)
    (hr9 : s.cellsInRange) {y x : Nat} (hy : y < H) (hx : x < W)
    (hz : s.cell y x = some 0) : s.cellSum + 9 ≤ 9 * (H * W : Nat) := by
  have hyl : y < s.points_.length := by rw [hwf.1]; exact hy
  have hrow : s.points_[y]? = some s.points_[y] := List.getElem?_eq_getElem hyl
  have hrl : (s.points_[y]).length = W := hwf.2 _ (List.getElem_mem hyl)
  have hxl : x < (s.points_[y]).length := by rw [hrl]; exact hx
  have hcell : (s.points_[y])[x]? = some 0 := by
    rw [cell_natCast, hrow] at hz
    exact hz
  have hsum := cellSum_set s.points_ y s.points_[y] ((s.points_[y]).set x 9) hrow
  rw [sum_set_int _ x 9 0 hcell] at hsum
  have hbound := rows_sum_le W (s.points_.set y ((s.points_[y]).set x 9)) (by
    intro row hmem
    rcases List.mem_or_eq_of_mem_set hmem with h1 | h1
    · exact ⟨hwf.2 row h1, fun v hv => (hr9 row h1 v hv).2⟩
    · rw [h1]
      refine ⟨by rw [List.length_set, hrl], ?_⟩
      intro v hv
      rcases List.mem_or_eq_of_mem_set hv with h2 | h2
      · exact (hr9 _ (List.getElem_mem hyl) v h2).2
      · omega)
  rw [List.length_set, hwf.1] at hbound
  unfold MazeState.cellSum
  omega

theorem wrapInt32_eq_self {n : Int} (h0 : -2147483648 ≤ n) (h1 : n < 2147483648) :
    wrapInt32 n = n := by
  unfold wrapInt32
  omega

theorem ofOutputs_cellSum_le (H W : Nat) (hH : 0 < H) (hW : 0 < W) (r : Nat → Nat) :
    (MazeState.ofOutputs H W r).cellSum + 9 ≤ 9 * (H * W : Nat) := by
  obtain ⟨pts, hc, _, _⟩ := construct_spec H W hH hW r
  obtain ⟨hwf, _, _, _, hz, _⟩ := ofOutputs_facts H W hH hW r
  have hch : (MazeState.ofOutputs H W r).character_ =
      { y_ := ((r 0 % H : Nat) : Int), x_ := ((r 1 % W : Nat) : Int) } := by
    simp [MazeState.ofOutputs, hc]
  rw [hch] at hz
  exact cellSum_le_of_zero_cell hwf (ofOutputs_cellsInRange H W hH hW r)
    (Nat.mod_lt _ hH) (Nat.mod_lt _ hW) hz

theorem reachable_score_le (H W : Nat) (hH : 0 < H) (hW : 0 < W) (r : Nat → Nat)
    {actions : List Int} {sk : MazeState}
    (hrun : legalRun H W (MazeState.ofOutputs H W r) actions = some sk) :
    0 ≤ sk.game_score_ ∧ sk.game_score_ + 9 ≤ 9 * (H * W : Nat) := by
  obtain ⟨_, _, _, hs, _⟩ := ofOutputs_facts H W hH hW r
  have h1 := legalRun_cellSum hrun
  have h2 := ofOutputs_cellSum_le H W hH hW r
  have h3 := cellSum_nonneg (cellsInRange_nonNeg
    (legalRun_cellsInRange (ofOutputs_cellsInRange H W hH hW r) hrun))
  exact ⟨legalRun_score_nonneg hH hW hrun, by omega⟩

/-- C20: in every state reachable from the constructed state by legal advances on
the 3x4 grid every cell value lies in `[0,9]` and
`0 <= game_score_ <= 9 * (H*W - 1) = 99`; hence adding any cell value to
`game_score_` stays within 32-bit `int` (no wrap), and `evaluateScore()` stores
exactly `game_score_`, a value within 64 bits. -/
theorem values_in_range (r : Nat → Nat) (actions : List Int) (sk : MazeState)
    (hrun : legalRun H W (MazeState.ofOutputs H W r) actions = some sk) :
    (∀ (y x v : Int), sk.cell y x = some v → 0 ≤ v ∧ v ≤ 9) ∧
    0 ≤ sk.game_score_ ∧ sk.game_score_ ≤ 9 * ((H : Int) * W - 1) ∧
    9 * ((H : Int) * W - 1) = 99 ∧
    (∀ (y x v : Int), sk.cell y x = some v →
      wrapInt32 (sk.game_score_ + v) = sk.game_score_ + v) ∧
    sk.evaluateScore.evaluated_score_ = sk.game_score_ ∧
    -9223372036854775808 ≤ sk.evaluateScore.evaluated_score_ ∧
    sk.evaluateScore.evaluated_score_ < 9223372036854775808 := by
  have hr9 := legalRun_cellsInRange
    (ofOutputs_cellsInRange H W (by decide) (by decide) r) hrun
  have hcell : ∀ (y x v : Int), sk.cell y x = some v → 0 ≤ v ∧ v ≤ 9 := by
    intro y x v hv
    obtain ⟨row, hrow, hmem⟩ := cell_eq_some_mem hv
    exact hr9 row hrow v hmem
  obtain ⟨hs0, hs1⟩ := reachable_score_le H W (by decide) (by decide) r hrun
  have hHW : ((H * W : Nat) : Int) = 12 := by decide
  rw [hHW] at hs1
  have e : 9 * ((H : Int) * W - 1) = 99 := by decide
  refine ⟨hcell, hs0, by rw [e]; omega, e, ?_, rfl, ?_, ?_⟩
  · intro y x v hv
    have := hcell y x v hv
    exact wrapInt32_eq_self (by omega) (by omega)
  · show -9223372036854775808 ≤ sk.game_score_
    omega
  · show sk.game_score_ < 9223372036854775808
    omega

/-- From the board generated by the outputs `7 * i + 5` the legal walk north, east,
east, south reaches score 14 with all cells in range. -/
theorem values_in_range_witness :
    (legalRun H W (MazeState.ofOutputs H W sampleOutputs) [3, 0, 0, 2]).map
      (fun sk => (sk.game_score_, decide sk.cellsInRange)) = some (14, true) ∧
    0 ≤ ((legalRun H W (MazeState.ofOutputs H W sampleOutputs) [3, 0, 0, 2]).get
      (by decide)).game_score_ ∧
    ((legalRun H W (MazeState.ofOutputs H W sampleOutputs) [3, 0, 0, 2]).get
      (by decide)).game_score_ ≤ 9 * ((H : Int) * W - 1) :=
  ⟨by decide,
    (values_in_range sampleOutputs [3, 0, 0, 2] _ (Option.some_get _).symm).2.1,
    (values_in_range sampleOutputs [3, 0, 0, 2] _ (Option.some_get _).symm).2.2.1⟩

theorem playLoop_spec (H W : Nat) (h2 : 2 ≤ H ∨ 2 ≤ W) (k : Nat) :
    ∀ (s : MazeState) (fuel : Nat), s.WF H W → s.inBounds H W → 0 ≤ s.game_score_ →
      s.turn_ + k = END_TURN → k + 1 ≤ fuel →
      ∃ final actions, playLoop H W fuel s = some (final, actions) ∧ actions.length = k ∧
        legalRun H W s actions = some final ∧ final.turn_ = END_TURN ∧
        final.isDone = true := by
  induction k with
  | zero =>
    intro s fuel _ _ _ ht hfuel
    obtain ⟨n, rfl⟩ : ∃ n, fuel = n + 1 := ⟨fuel - 1, by omega⟩
    have hdone : s.isDone = true := by
      simp only [MazeState.isDone, beq_iff_eq]
      omega
    exact ⟨s, [], by simp [playLoop, hdone], rfl, rfl, by omega, hdone⟩
  | succ k ih =>
    intro s fuel hwf hin hs ht hfuel
    obtain ⟨n, rfl⟩ : ∃ n, fuel = n + 1 := ⟨fuel - 1, by omega⟩
    have hdone : s.isDone = false := by
      simp only [MazeState.isDone, beq_eq_false_iff_ne, ne_eq]
      omega
    have hne := (legalActions_ne_nil_iff hin).2 h2
    obtain ⟨a, _, hgreedy, hmem, _⟩ := greedyAction_spec hwf (by unfold INF; omega) hne
    obtain ⟨s1, hs1⟩ := Option.isSome_iff_exists.1 ((advance_isSome_iff hwf a).2 hmem)
    have hturn := advance_turn hs1
    obtain ⟨final, actions, hloop, hlen, hrun, hft, hfd⟩ := ih s1 n (advance_WF hwf hs1)
      (advance_inBounds hwf hs1) (le_trans hs (advance_score_le hs1))
      (by rw [hturn]; push_cast at ht ⊢; omega) (by omega)
    refine ⟨final, a :: actions, ?_, by simp [hlen], ?_, hft, hfd⟩
    · simp [playLoop, hdone, hgreedy, hs1, hloop]
    · rw [legalRun_cons_of actions hmem hs1]
      exact hrun

/-- C17: for every output sequence of the seeded generator the loop of `playGame`
terminates (any fuel of at least 5 loop tests suffices) after exactly
`END_TURN = 4` iterations; every action it passes to `advance` is a member of
`legalActions()` of the current state, and the final state has `turn_ == 4` and
`isDone()` true. -/
theorem greedy_driver_terminates (H W : Nat) (hH : 0 < H) (hW : 0 < W)
    (h2 : 2 ≤ H ∨ 2 ≤ W) (r : Nat → Nat) (fuel : Nat) (hfuel : 5 ≤ fuel) :
    ∃ final actions, playGame H W fuel { outputs := r, drawn := 0 } = some (final, actions) ∧
      actions.length = 4 ∧ (actions.length : Int) = END_TURN ∧
      legalRun H W (MazeState.ofOutputs H W r) actions = some final ∧
      final.turn_ = 4 ∧ final.isDone = true := by
  obtain ⟨hwf, hin, ht, hs, _⟩ := ofOutputs_facts H W hH hW r
  obtain ⟨final, actions, hloop, hlen, hrun, hft, hfd⟩ :=
    playLoop_spec H W h2 4 (MazeState.ofOutputs H W r) fuel hwf hin (by omega)
      (by rw [ht]; rfl) (by omega)
  exact ⟨final, actions, hloop, hlen, by rw [hlen]; rfl, hrun, hft, hfd⟩

/-- With the outputs `7 * i + 5` on the 3x4 grid the driver plays north, north, east,
south and stops at turn 4 with score 26. -/
theorem greedy_driver_terminates_witness :
    0 < H ∧ 0 < W ∧ (2 ≤ H ∨ 2 ≤ W) ∧ 5 ≤ 5 ∧
    (playGame H W 5 { outputs := sampleOutputs, drawn := 0 }).map
      (fun p => (p.1.turn_, p.1.game_score_, p.2)) = some (4, 26, [3, 3, 0, 2]) ∧
    ∃ final actions,
      playGame H W 5 { outputs := sampleOutputs, drawn := 0 } = some (final, actions) ∧
      actions.length = 4 ∧ (actions.length : Int) = END_TURN ∧
      legalRun H W (MazeState.ofOutputs H W sampleOutputs) actions = some final ∧
      final.turn_ = 4 ∧ final.isDone = true :=
  ⟨by decide, by decide, by decide, by decide, by decide,
    greedy_driver_terminates H W (by decide) (by decide) (by decide) sampleOutputs 5
      (by decide)⟩

theorem candidateScore_eq_destValue {H W : Nat} {s : MazeState} (hwf : s.WF H W)
    (hnn : s.nonNegCells) {a : Int} (ha : a ∈ s.legalActions H W) :
    ∃ point, s.destValue a = some point ∧ 0 ≤ point ∧
      candidateScore s a = some (s.game_score_ + point) := by
  obtain ⟨ay, ax, row, point, hx, hy, hr, hp, hc, _, hadv⟩ := legal_advance hwf ha
  have h0 := nonNegCells_cell hnn hc
  refine ⟨point, by simp [MazeState.destValue, hx, hy, hc], h0, ?_⟩
  simp only [candidateScore, hadv, Option.map_some', MazeState.evaluateScore,
    MazeState.moved, Option.some.injEq]
  by_cases hpt : point > 0
  · simp [hpt]
  · have : point = 0 := by omega
    simp [this]

theorem find_first_of_pairwise (l : List Int) (p : Int → Bool)
    (hpw : l.Pairwise (fun a b => a < b)) (a : Int) (ha : a ∈ l) (hp : p a = true)
    (hbefore : ∀ b ∈ l, b < a → p b = false) : l.find? p = some a := by
  induction l with
  | nil => cases ha
  | cons d rest ih =>
    by_cases hd : d = a
    · subst hd
      simp [List.find?_cons, hp]
    · rcases List.mem_cons.1 ha with h1 | h1
      · exact absurd h1.symm hd
      · have hlt : d < a := (List.pairwise_cons.1 hpw).1 a h1
        have hpd := hbefore d (List.mem_cons_self d rest) hlt
        rw [List.find?_cons, hpd]
        exact ih (List.pairwise_cons.1 hpw).2 h1
          (fun b hb hba => hbefore b (List.mem_cons_of_mem d hb) hba)

theorem greedy_first_max {H W : Nat} {s : MazeState} (hwf : s.WF H W)
    (hnn : s.nonNegCells) (hne : s.legalActions H W ≠ []) (hlow : -INF < s.game_score_) :
    ∃ a v, greedyAction H W s = some a ∧ a ∈ s.legalActions H W ∧
      s.destValue a = some v ∧
      ∀ b ∈ s.legalActions H W, ∃ vb, s.destValue b = some vb ∧ vb ≤ v ∧
        (b < a → vb < v) := by
  obtain ⟨a, sa, hgreedy, hmem, hsa, hall⟩ := greedyAction_spec hwf hlow hne
  obtain ⟨v, hv, _, hcv⟩ := candidateScore_eq_destValue hwf hnn hmem
  rw [hsa] at hcv
  have hsav := Option.some.inj hcv
  refine ⟨a, v, hgreedy, hmem, hv, ?_⟩
  intro b hb
  obtain ⟨sb, hsb, hle, hlt⟩ := hall b hb
  obtain ⟨vb, hvb, _, hcb⟩ := candidateScore_eq_destValue hwf hnn hb
  rw [hsb] at hcb
  have hsbv := Option.some.inj hcb
  exact ⟨vb, hvb, by omega, fun h => by have := hlt h; omega⟩

theorem greedy_eq_argmax {H W : Nat} {s : MazeState} (hwf : s.WF H W)
    (hnn : s.nonNegCells) (hne : s.legalActions H W ≠ []) (hlow : -INF < s.game_score_) :
    greedyAction H W s = argmaxAction H W s := by
  obtain ⟨a, v, hgreedy, hmem, hv, hall⟩ := greedy_first_max hwf hnn hne hlow
  rw [hgreedy]
  symm
  unfold argmaxAction
  apply find_first_of_pairwise _ _ (legalActions_pairwise H W s) a hmem
  · rw [List.all_eq_true]
    intro b hb
    obtain ⟨vb, hvb, hle, _⟩ := hall b hb
    simp [hv, hvb, hle]
  · intro b hb hlt
    obtain ⟨vb, hvb, _, hlt2⟩ := hall b hb
    rw [List.all_eq_false]
    refine ⟨a, hmem, ?_⟩
    have := hlt2 hlt
    simp [hv, hvb, this]

theorem argmaxAction_congr (H W : Nat) {s t : MazeState} (hp : t.points_ = s.points_)
    (hc : t.character_ = s.character_) : argmaxAction H W t = argmaxAction H W s := by
  have hl : t.legalActions H W = s.legalActions H W := by
    simp [MazeState.legalActions, hc]
  have hd : ∀ a, t.destValue a = s.destValue a := by
    intro a
    simp [MazeState.destValue, MazeState.cell, hp, hc]
  simp only [argmaxAction, hl, hd]

/-- C18 as stated fails: the sample board with `game_score_ = -200000000` has the
agent in bounds, non-negative cells and four legal actions, but every candidate
score stays below `-INF`, so `greedyAction` fails its assertion instead of
returning the first maximal neighbour 3, which it returns when only
`game_score_` is changed to 0. With `game_score_ = 2147483644` the candidates of the
actions 2 and 3 wrap around on the machine's 32-bit `int` and `greedyAction` returns
0 instead of 3. -/
theorem greedy_argmax_counterexample :
    debtState.WF H W ∧ debtState.inBounds H W ∧ debtState.nonNegCells ∧
    debtState.legalActions H W ≠ [] ∧
    debtState.points_ = sampleState.points_ ∧
    debtState.character_ = sampleState.character_ ∧
    argmaxAction H W debtState = some 3 ∧
    greedyAction H W debtState = none ∧
    greedyAction H W sampleState = some 3 ∧
    debtState.typed32 H W ∧
    greedyAction32 H W debtState = none ∧
    greedyAction32 H W sampleState = some 3 ∧
    nearMaxState.WF H W ∧ nearMaxState.typed32 H W ∧ nearMaxState.inBounds H W ∧
    nearMaxState.nonNegCells ∧ nearMaxState.legalActions H W ≠ [] ∧
    argmaxAction H W nearMaxState = some 3 ∧
    greedyAction32 H W nearMaxState = some 0 := by
  decide

theorem fitsInt32_wrapInt32 (n : Int) : fitsInt32 (wrapInt32 n) := by
  unfold fitsInt32 wrapInt32
  omega

theorem wrapInt32_of_fits {n : Int} (h : fitsInt32 n) : wrapInt32 n = n :=
  wrapInt32_eq_self h.1 (by have := h.2; omega)

theorem flat_index_row {W : Nat} {y x : Int} (h0 : 0 ≤ x) (h1 : x < W) :
    (y * W + x) / W = y := by
  have hW : (W : Int) ≠ 0 := by omega
  rw [Int.add_comm, Int.add_mul_ediv_right _ _ hW, Int.ediv_eq_zero_of_lt h0 h1, Int.zero_add]

theorem flat_index_col {W : Nat} {y x : Int} (h0 : 0 ≤ x) (h1 : x < W) :
    (y * W + x) % W = x := by
  rw [Int.add_comm, Int.add_mul_emod_self, Int.emod_eq_of_lt h0 h1]

theorem advance32_moved {W : Nat} {s : MazeState} {a ay ax : Int} {row : List Int}
    {point : Int} (hx : subscript dx a = some ax) (hy : subscript dy a = some ay)
    (hfx : fitsInt32 (s.character_.x_ + ax)) (hfy : fitsInt32 (s.character_.y_ + ay))
    (hx0 : 0 ≤ s.character_.x_ + ax) (hx1 : s.character_.x_ + ax < W)
    (hs : fitsInt32 s.game_score_)
    (hr : subscript s.points_ (s.character_.y_ + ay) = some row)
    (hp : subscript row (s.character_.x_ + ax) = some point) :
    s.advance32 W a = some (s.moved ay ax row point).wrap32 := by
  simp only [MazeState.advance32, hx, hy, Option.bind_eq_bind, Option.some_bind,
    wrapInt32_of_fits hfx, wrapInt32_of_fits hfy, flat_index_row hx0 hx1,
    flat_index_col hx0 hx1, hr, hp, MazeState.moved, MazeState.wrap32]
  by_cases h : point > 0
  · simp [h]
  · simp [h, wrapInt32_of_fits hs]

theorem advance32_legal {H W : Nat} {s : MazeState} (hwf : s.WF H W)
    (hty : s.typed32 H W) {a : Int} (ha : a ∈ s.legalActions H W) :
    ∃ s1, s.advance a = some s1 ∧ s.advance32 W a = some s1.wrap32 := by
  obtain ⟨ay, ax, row, point, hx, hy, hr, hp, _, hd, hadv⟩ := legal_advance hwf ha
  obtain ⟨hH, hW, _, _, _, hs, _⟩ := hty
  obtain ⟨d1, d2, d3, d4⟩ := hd
  refine ⟨_, hadv, advance32_moved hx hy ?_ ?_ d3 d4 hs hr hp⟩
  · unfold fitsInt32; omega
  · unfold fitsInt32; omega

theorem destValue_of_subscripts {s : MazeState} {a ay ax : Int}
    (hx : subscript dx a = some ax) (hy : subscript dy a = some ay) :
    s.destValue a = s.cell (s.character_.y_ + ay) (s.character_.x_ + ax) := by
  simp [MazeState.destValue, hx, hy]

theorem moved_cells_all (P : Int → Prop) (h0 : P 0) {s : MazeState}
    (hall : ∀ row ∈ s.points_, ∀ v ∈ row, P v) {ay ax : Int} {row : List Int} (point : Int)
    (hr : subscript s.points_ (s.character_.y_ + ay) = some row) :
    ∀ r ∈ (s.moved ay ax row point).points_, ∀ v ∈ r, P v := by
  by_cases h : point > 0
  · intro r hmem v hv
    simp only [MazeState.moved, h, if_true] at hmem
    rcases List.mem_or_eq_of_mem_set hmem with h1 | h1
    · exact hall r h1 v hv
    · rw [h1] at hv
      rcases List.mem_or_eq_of_mem_set hv with h2 | h2
      · exact hall row (subscript_mem hr) v h2
      · rw [h2]; exact h0
  · simpa [MazeState.moved, h] using hall

theorem advance_wrap32_typed {H W : Nat} {s s1 : MazeState} (hwf : s.WF H W)
    (hty : s.typed32 H W) {a : Int} (h : s.advance a = some s1) :
    s1.wrap32.typed32 H W := by
  have hin := advance_inBounds hwf h
  obtain ⟨ay, ax, row, point, _, _, hr, _, rfl⟩ := advance_inv h
  obtain ⟨hH, hW, _, _, _, _, hcells⟩ := hty
  obtain ⟨i1, i2, i3, i4⟩ := hin
  refine ⟨hH, hW, fitsInt32_wrapInt32 _, ?_, ?_, fitsInt32_wrapInt32 _,
    moved_cells_all fitsInt32 (by decide) hcells point hr⟩
  · unfold fitsInt32
    simp only [MazeState.wrap32] at i1 i2 ⊢
    omega
  · unfold fitsInt32
    simp only [MazeState.wrap32] at i3 i4 ⊢
    omega

theorem advance32_legal_fits {H W : Nat} {s : MazeState} (hwf : s.WF H W)
    (hty : s.typed32 H W) {a : Int} (ha : a ∈ s.legalActions H W) (hfit : s.scoreFits a) :
    ∃ s1, s.advance a = some s1 ∧ fitsInt32 s1.game_score_ ∧
      s.advance32 W a = some { s1 with turn_ := wrapInt32 s1.turn_ } := by
  obtain ⟨ay, ax, row, point, hx, hy, hr, hp, hc, hd, hadv⟩ := legal_advance hwf ha
  obtain ⟨s1, hs1, h32⟩ := advance32_legal hwf hty ha
  rw [hadv] at hs1
  obtain rfl := Option.some.inj hs1
  have hs := hty.2.2.2.2.2.1
  have hpt : fitsInt32 point := hty.2.2.2.2.2.2 row (subscript_mem hr) point (subscript_mem hp)
  have hfit2 : s.game_score_ + point ≤ 2147483647 := by
    have := hfit
    unfold MazeState.scoreFits at this
    rw [destValue_of_subscripts hx hy, hc] at this
    exact this
  have hf : fitsInt32 (s.moved ay ax row point).game_score_ := by
    unfold fitsInt32 at hs hpt ⊢
    by_cases h : point > 0
    · simp only [MazeState.moved, h, if_true]; omega
    · simp only [MazeState.moved, h, if_false]; omega
  refine ⟨_, hadv, hf, ?_⟩
  rw [h32]
  simp only [MazeState.wrap32, wrapInt32_of_fits hf]

/-- C2 as stated fails on the machine's 32-bit `int`: on the sample board with
`game_score_ = INT_MAX` the legal action 3 lands on the value 6 and leaves
`game_score_ = -2147483643`, not `INT_MAX + 6`; with `turn_ = INT_MAX` the turn
counter becomes `INT_MIN`, not `INT_MAX + 1`. -/
theorem advance_post_counterexample :
    richState.WF H W ∧ richState.typed32 H W ∧ richState.inBounds H W ∧
    (3 : Int) ∈ richState.legalActions H W ∧ richState.destValue 3 = some 6 ∧
    (richState.advance32 W 3).map (fun s => s.game_score_) = some (-2147483643) ∧
    richState.game_score_ + 6 = 2147483653 ∧
    lateState.WF H W ∧ lateState.typed32 H W ∧ lateState.inBounds H W ∧
    (3 : Int) ∈ lateState.legalActions H W ∧
    (lateState.advance32 W 3).map (fun s => s.turn_) = some (-2147483648) ∧
    lateState.turn_ + 1 = 2147483648 := by
  decide

/-- C2 amended: for every state with the agent in bounds and every legal action `a`
such that the `int` additions do not overflow (`game_score_ + v <= INT_MAX` for the
destination value `v`, and `turn_ < INT_MAX`), after `advance(a)` the agent is at
`(y + dy[a], x + dx[a])`; a destination value `v > 0` is added to `game_score_` and
the cell becomes 0, otherwise score and cell are unchanged; `turn_` grows by one;
every other cell is unchanged. -/
theorem advance_post_amended (H W : Nat) (s : MazeState) (a : Int) (hwf : s.WF H W)
    (hty : s.typed32 H W) (hin : s.inBounds H W) (ha : a ∈ s.legalActions H W)
    (hfit : s.scoreFits a) (hturn : s.turn_ < 2147483647) :
    ∃ ay ax v s1, subscript dy a = some ay ∧ subscript dx a = some ax ∧
      s.cell (s.character_.y_ + ay) (s.character_.x_ + ax) = some v ∧
      s.advance32 W a = some s1 ∧
      s1.character_ = { y_ := s.character_.y_ + ay, x_ := s.character_.x_ + ax } ∧
      (v > 0 → s1.game_score_ = s.game_score_ + v ∧
        s1.cell (s.character_.y_ + ay) (s.character_.x_ + ax) = some 0) ∧
      (¬ v > 0 → s1.game_score_ = s.game_score_ ∧
        s1.cell (s.character_.y_ + ay) (s.character_.x_ + ax) = some v) ∧
      s1.turn_ = s.turn_ + 1 ∧
      (∀ y1 x1 : Int, ¬ (y1 = s.character_.y_ + ay ∧ x1 = s.character_.x_ + ax) →
        s1.cell y1 x1 = s.cell y1 x1) := by
  obtain ⟨ay, ax, v, s1, hy, hx, hc, hadv, hch, hpos, hneg, ht, hframe⟩ :=
    advance_exact_post H W s a hwf hin ha
  obtain ⟨s2, hs2, _, h32⟩ := advance32_legal_fits hwf hty ha hfit
  rw [hadv] at hs2
  obtain rfl := Option.some.inj hs2
  have htf : fitsInt32 s1.turn_ := by
    have := hty.2.2.1
    unfold fitsInt32 at this ⊢
    omega
  refine ⟨ay, ax, v, _, hy, hx, hc, h32, hch, hpos, hneg, ?_, hframe⟩
  show wrapInt32 s1.turn_ = s.turn_ + 1
  rw [wrapInt32_of_fits htf, ht]

/-- Moving north from (1,1) on the sample board collects the 6 of cell (0,1). -/
theorem advance_post_amended_witness :
    sampleState.WF H W ∧ sampleState.typed32 H W ∧ sampleState.inBounds H W ∧
    (3 : Int) ∈ sampleState.legalActions H W ∧ sampleState.scoreFits 3 ∧
    sampleState.turn_ < 2147483647 ∧
    (sampleState.advance32 W 3).map (fun s => (s.character_, s.game_score_, s.turn_)) =
      some ({ y_ := 0, x_ := 1 }, 6, 1) ∧
    ∃ ay ax v s1, subscript dy 3 = some ay ∧ subscript dx 3 = some ax ∧
      sampleState.cell (sampleState.character_.y_ + ay) (sampleState.character_.x_ + ax)
        = some v ∧
      sampleState.advance32 W 3 = some s1 ∧
      s1.character_ =
        { y_ := sampleState.character_.y_ + ay, x_ := sampleState.character_.x_ + ax } ∧
      (v > 0 → s1.game_score_ = sampleState.game_score_ + v ∧
        s1.cell (sampleState.character_.y_ + ay) (sampleState.character_.x_ + ax) = some 0) ∧
      (¬ v > 0 → s1.game_score_ = sampleState.game_score_ ∧
        s1.cell (sampleState.character_.y_ + ay) (sampleState.character_.x_ + ax) = some v) ∧
      s1.turn_ = sampleState.turn_ + 1 ∧
      (∀ y1 x1 : Int,
        ¬ (y1 = sampleState.character_.y_ + ay ∧ x1 = sampleState.character_.x_ + ax) →
        s1.cell y1 x1 = sampleState.cell y1 x1) :=
  ⟨by decide, by decide, by decide, by decide, by decide, by decide, by decide,
    advance_post_amended H W sampleState 3 (by decide) (by decide) (by decide) (by decide)
      (by decide) (by decide)⟩

theorem advance32_character {W : Nat} {s s1 : MazeState} {a : Int}
    (h : s.advance32 W a = some s1) :
    ∃ ay ax, subscript dy a = some ay ∧ subscript dx a = some ax ∧
      s1.character_ = { y_ := wrapInt32 (s.character_.y_ + ay),
                        x_ := wrapInt32 (s.character_.x_ + ax) } := by
  cases hx : subscript dx a with
  | none => simp [MazeState.advance32, hx] at h
  | some ax =>
    cases hy : subscript dy a with
    | none => simp [MazeState.advance32, hx, hy] at h
    | some ay =>
      refine ⟨ay, ax, rfl, rfl, ?_⟩
      simp only [MazeState.advance32, hx, hy, Option.bind_eq_bind, Option.some_bind] at h
      cases hr : subscript s.points_
          ((wrapInt32 (s.character_.y_ + ay) * W + wrapInt32 (s.character_.x_ + ax)) / W) with
      | none => simp [hr] at h
      | some row =>
        cases hp : subscript row
            ((wrapInt32 (s.character_.y_ + ay) * W + wrapInt32 (s.character_.x_ + ax)) % W) with
        | none => simp [hr, hp] at h
        | some point =>
          simp only [hr, hp, Option.some_bind, Option.some.injEq] at h
          rw [← h]
          by_cases hpt : point > 0 <;> simp [hpt]

theorem legalRun32_cons_some {H W : Nat} {s s2 : MazeState} {a : Int} {rest : List Int}
    (h : legalRun32 H W s (a :: rest) = some s2) :
    ∃ s1, a ∈ s.legalActions H W ∧ s.advance32 W a = some s1 ∧
      legalRun32 H W s1 rest = some s2 := by
  unfold legalRun32 at h
  by_cases ha : a ∈ s.legalActions H W
  · rw [if_pos ha] at h
    cases hadv : s.advance32 W a with
    | none => simp [hadv] at h
    | some s1 => exact ⟨s1, ha, rfl, by simpa [hadv] using h⟩
  · rw [if_neg ha] at h
    cases h

theorem legalRun32_append (H W : Nat) (s : MazeState) (l1 l2 : List Int) :
    legalRun32 H W s (l1 ++ l2) =
      (legalRun32 H W s l1).bind fun s1 => legalRun32 H W s1 l2 := by
  induction l1 generalizing s with
  | nil => simp [legalRun32]
  | cons a rest ih =>
    simp only [List.cons_append, legalRun32]
    by_cases ha : a ∈ s.legalActions H W
    · simp only [if_pos ha]
      cases s.advance32 W a with
      | none => rfl
      | some s1 => simpa using ih s1
    · simp [if_neg ha]

theorem legalRun32_prefix {H W : Nat} {s s2 : MazeState} {l1 l2 : List Int}
    (h : legalRun32 H W s (l1 ++ l2) = some s2) :
    ∃ s1, legalRun32 H W s l1 = some s1 ∧ legalRun32 H W s1 l2 = some s2 := by
  rw [legalRun32_append] at h
  cases h1 : legalRun32 H W s l1 with
  | none => simp [h1] at h
  | some s1 => exact ⟨s1, rfl, by simpa [h1] using h⟩

theorem legalRun32_step {H W : Nat} {s s2 : MazeState} {actions : List Int}
    (h : legalRun32 H W s actions = some s2) (i : Nat) (hi : i < actions.length) :
    ∃ si sj, legalRun32 H W s (actions.take i) = some si ∧
      actions[i] ∈ si.legalActions H W ∧ si.advance32 W actions[i] = some sj ∧
      legalRun32 H W s (actions.take (i + 1)) = some sj := by
  have hsplit : actions = actions.take i ++ (actions[i] :: actions.drop (i + 1)) := by
    rw [← List.drop_eq_getElem_cons hi, List.take_append_drop]
  rw [hsplit] at h
  obtain ⟨si, hsi, hrest⟩ := legalRun32_prefix h
  obtain ⟨sj, hleg, hadv, _⟩ := legalRun32_cons_some hrest
  refine ⟨si, sj, hsi, hleg, hadv, ?_⟩
  have htake : actions.take (i + 1) = actions.take i ++ [actions[i]] := by
    rw [List.take_succ, List.getElem?_eq_getElem hi]
    rfl
  rw [htake, legalRun32_append, hsi]
  simp [legalRun32, hleg, hadv]

theorem advance32_invariants {H W : Nat} {s s1 : MazeState} (hwf : s.WF H W)
    (hty : s.typed32 H W) {a : Int} (ha : a ∈ s.legalActions H W)
    (h : s.advance32 W a = some s1) :
    s1.WF H W ∧ s1.typed32 H W ∧ s1.inBounds H W := by
  obtain ⟨s2, hs2, h32⟩ := advance32_legal hwf hty ha
  rw [h] at h32
  obtain rfl := Option.some.inj h32
  have h1 : s2.WF H W := advance_WF hwf hs2
  have h3 : s2.inBounds H W := advance_inBounds hwf hs2
  exact ⟨h1, advance_wrap32_typed hwf hty hs2, h3⟩

theorem legalRun32_invariants {H W : Nat} {s s1 : MazeState} {actions : List Int}
    (hwf : s.WF H W) (hty : s.typed32 H W) (h : legalRun32 H W s actions = some s1) :
    s1.WF H W ∧ s1.typed32 H W := by
  induction actions generalizing s with
  | nil =>
    simp only [legalRun32, Option.some.injEq] at h
    exact h ▸ ⟨hwf, hty⟩
  | cons a rest ih =>
    obtain ⟨s2, ha, hadv, hrest⟩ := legalRun32_cons_some h
    obtain ⟨h1, h2, _⟩ := advance32_invariants hwf hty ha hadv
    exact ih h1 h2 hrest

theorem advance32_score_le {H W : Nat} {s s1 : MazeState} (hwf : s.WF H W)
    (hty : s.typed32 H W) {a : Int} (ha : a ∈ s.legalActions H W) (hfit : s.scoreFits a)
    (h : s.advance32 W a = some s1) : s.game_score_ ≤ s1.game_score_ := by
  obtain ⟨s2, hs2, _, h32⟩ := advance32_legal_fits hwf hty ha hfit
  rw [h] at h32
  obtain rfl := Option.some.inj h32
  have hle : s.game_score_ ≤ s2.game_score_ := advance_score_le hs2
  exact hle

/-- C7 as stated fails on the machine's 32-bit `int`: on the sample board with
`game_score_ = INT_MAX` the one-action legal sequence `[3]` lands on the value 6 and
the score drops from 2147483647 to -2147483643. -/
theorem score_monotone_counterexample :
    richState.WF H W ∧ richState.typed32 H W ∧ richState.inBounds H W ∧
    (3 : Int) ∈ richState.legalActions H W ∧ richState.game_score_ = 2147483647 ∧
    (legalRun32 H W richState [3]).map (fun s => s.game_score_) = some (-2147483643) ∧
    ¬ (richState.game_score_ ≤ -2147483643) := by
  decide

/-- C7 amended: for every state with the agent in bounds and every finite sequence
of actions each legal when applied, every `advance` returns, and `game_score_` after
an advance is at least `game_score_` before it whenever the addition of that advance
does not exceed `INT_MAX` (whatever values the cells hold). -/
theorem score_monotone_amended (H W : Nat) (s : MazeState) (hwf : s.WF H W)
    (hty : s.typed32 H W) (hin : s.inBounds H W) :
    (∀ a ∈ s.legalActions H W, ∃ s1, s.advance32 W a = some s1 ∧
      (s.scoreFits a → s.game_score_ ≤ s1.game_score_)) ∧
    (∀ (actions : List Int) (sn : MazeState), legalRun32 H W s actions = some sn →
      ∀ i, i < actions.length →
        ∃ si sj, legalRun32 H W s (actions.take i) = some si ∧
          legalRun32 H W s (actions.take (i + 1)) = some sj ∧
          (si.scoreFits actions[i]! → si.game_score_ ≤ sj.game_score_)) := by
  have _ := hin
  refine ⟨?_, ?_⟩
  · intro a ha
    obtain ⟨s1, _, h32⟩ := advance32_legal hwf hty ha
    exact ⟨_, h32, fun hfit => advance32_score_le hwf hty ha hfit h32⟩
  · intro actions sn hrun i hi
    obtain ⟨si, sj, hsi, hleg, hadv, hsj⟩ := legalRun32_step hrun i hi
    obtain ⟨hwfi, htyi⟩ := legalRun32_invariants hwf hty hsi
    refine ⟨si, sj, hsi, hsj, ?_⟩
    intro hfit
    rw [getElem!_pos actions i hi] at hfit
    exact advance32_score_le hwfi htyi hleg hfit hadv

/-- On the sample board the legal walk north, east, south collects 6, 1, 2. -/
theorem score_monotone_amended_witness :
    sampleState.WF H W ∧ sampleState.typed32 H W ∧ sampleState.inBounds H W ∧
    (legalRun32 H W sampleState [3, 0, 2]).map (fun sn => sn.game_score_) = some 9 ∧
    ∀ i, i < ([3, 0, 2] : List Int).length →
      ∃ si sj, legalRun32 H W sampleState (([3, 0, 2] : List Int).take i) = some si ∧
        legalRun32 H W sampleState (([3, 0, 2] : List Int).take (i + 1)) = some sj ∧
        (si.scoreFits ([3, 0, 2] : List Int)[i]! → si.game_score_ ≤ sj.game_score_) :=
  ⟨by decide, by decide, by decide, by decide,
    (score_monotone_amended H W sampleState (by decide) (by decide) (by decide)).2 [3, 0, 2]
      ((legalRun32 H W sampleState [3, 0, 2]).get (by decide)) (Option.some_get _).symm⟩

theorem scoreFits_of_range {s : MazeState} (hr9 : s.cellsInRange)
    (hs : s.game_score_ + 9 ≤ 2147483647) (a : Int) : s.scoreFits a := by
  unfold MazeState.scoreFits
  cases hd : s.destValue a with
  | none =>
    simp only [Option.getD_none]
    omega
  | some v =>
    have hc : ∃ y x, s.cell y x = some v := by
      cases hy : subscript dy a with
      | none => simp [MazeState.destValue, hy] at hd
      | some ay =>
        cases hx : subscript dx a with
        | none => simp [MazeState.destValue, hy, hx] at hd
        | some ax =>
          rw [destValue_of_subscripts hx hy] at hd
          exact ⟨_, _, hd⟩
    obtain ⟨y, x, hyx⟩ := hc
    obtain ⟨row, hrow, hv⟩ := cell_eq_some_mem hyx
    have := hr9 row hrow v hv
    simp only [Option.getD_some]
    omega

theorem advance32_sum {H W : Nat} {s s1 : MazeState} (hwf : s.WF H W)
    (hty : s.typed32 H W) {a : Int} (ha : a ∈ s.legalActions H W) (hfit : s.scoreFits a)
    (h : s.advance32 W a = some s1) :
    s1.game_score_ + s1.cellSum = s.game_score_ + s.cellSum ∧
    s.game_score_ ≤ s1.game_score_ ∧ (s.cellsInRange → s1.cellsInRange) := by
  obtain ⟨s2, hs2, _, h32⟩ := advance32_legal_fits hwf hty ha hfit
  rw [h] at h32
  obtain rfl := Option.some.inj h32
  have h1 : s2.game_score_ + s2.cellSum = s.game_score_ + s.cellSum := advance_cellSum hs2
  have h2 : s.game_score_ ≤ s2.game_score_ := advance_score_le hs2
  have h3 : s.cellsInRange → s2.cellsInRange := fun hr => advance_cellsInRange hr hs2
  exact ⟨h1, h2, h3⟩

theorem legalRun32_sum {H W : Nat} {s s1 : MazeState} {actions : List Int} (C : Int)
    (hC : C + 9 ≤ 2147483647) (hwf : s.WF H W) (hty : s.typed32 H W)
    (hr9 : s.cellsInRange) (hs0 : 0 ≤ s.game_score_)
    (hsum : s.game_score_ + s.cellSum = C)
    (h : legalRun32 H W s actions = some s1) :
    s1.cellsInRange ∧ 0 ≤ s1.game_score_ ∧ s1.game_score_ + s1.cellSum = C := by
  induction actions generalizing s with
  | nil =>
    simp only [legalRun32, Option.some.injEq] at h
    exact h ▸ ⟨hr9, hs0, hsum⟩
  | cons a rest ih =>
    obtain ⟨s2, ha, hadv, hrest⟩ := legalRun32_cons_some h
    have hcs := cellSum_nonneg (cellsInRange_nonNeg hr9)
    have hfit := scoreFits_of_range hr9 (by omega) a
    obtain ⟨h1, h2, h3⟩ := advance32_sum hwf hty ha hfit hadv
    obtain ⟨i1, i2, _⟩ := advance32_invariants hwf hty ha hadv
    exact ih i1 i2 (h3 hr9) (by omega) (by omega) hrest

theorem ofOutputs_typed32 (H W : Nat) (hH : 0 < H) (hW : 0 < W)
    (hHi : (H : Int) ≤ 2147483647) (hWi : (W : Int) ≤ 2147483647) (r : Nat → Nat) :
    (MazeState.ofOutputs H W r).typed32 H W := by
  obtain ⟨_, hin, ht, hs, _, _⟩ := ofOutputs_facts H W hH hW r
  have hr9 := ofOutputs_cellsInRange H W hH hW r
  obtain ⟨i1, i2, i3, i4⟩ := hin
  refine ⟨hHi, hWi, ?_, ?_, ?_, ?_, ?_⟩
  · rw [ht]; decide
  · unfold fitsInt32; omega
  · unfold fitsInt32; omega
  · rw [hs]; decide
  · intro row hrow v hv
    have := hr9 row hrow v hv
    unfold fitsInt32
    omega

/-- C16 as stated fails on the machine's 32-bit `int`: on the sample board with
`game_score_ = INT_MAX` (score plus cell sum 2147483687) the legal action 3 collects
the 6 of cell (0,1), the score wraps to -2147483643 and score plus cell sum becomes
-2147483609. -/
theorem score_sum_counterexample :
    richState.WF H W ∧ richState.typed32 H W ∧ richState.inBounds H W ∧
    (3 : Int) ∈ richState.legalActions H W ∧
    richState.game_score_ + richState.cellSum = 2147483687 ∧
    (richState.advance32 W 3).map (fun s => (s.game_score_, s.cellSum)) =
      some (-2147483643, 34) ∧
    (richState.advance32 W 3).map (fun s => s.game_score_ + s.cellSum) =
      some (-2147483609) := by
  decide

/-- C16 amended: for every state with the agent in bounds and every legal action
whose addition `game_score_ + point` does not exceed `INT_MAX`, `game_score_` plus the
sum of all cell values is the same before and after `advance`; hence, on every grid
with `9 * H * W <= INT_MAX` (the 3x4 and 3x3 grids of the code), in every state
reachable from the constructed state by legal advances `game_score_` is the sum of
the initial cell values minus the sum of the current ones, and it is non-negative. -/
theorem score_sum_amended (H W : Nat) :
    (∀ (s : MazeState) (a : Int), s.WF H W → s.typed32 H W → s.inBounds H W →
      a ∈ s.legalActions H W → s.scoreFits a →
      ∃ s1, s.advance32 W a = some s1 ∧
        s1.game_score_ + s1.cellSum = s.game_score_ + s.cellSum) ∧
    (∀ (r : Nat → Nat) (actions : List Int) (sk : MazeState), 0 < H → 0 < W →
      9 * (H * W : Nat) ≤ (2147483647 : Int) →
      legalRun32 H W (MazeState.ofOutputs H W r) actions = some sk →
      sk.game_score_ = (MazeState.ofOutputs H W r).cellSum - sk.cellSum ∧
        0 ≤ sk.game_score_) := by
  refine ⟨?_, ?_⟩
  · intro s a hwf hty _ ha hfit
    obtain ⟨s1, _, h32⟩ := advance32_legal hwf hty ha
    exact ⟨_, h32, (advance32_sum hwf hty ha hfit h32).1⟩
  · intro r actions sk hH hW hsmall hrun
    obtain ⟨hwf, _, _, hs, _, _⟩ := ofOutputs_facts H W hH hW r
    have hHi : (H : Int) ≤ 2147483647 := by
      have : (H : Int) ≤ ((H * W : Nat) : Int) := by
        exact_mod_cast Nat.le_mul_of_pos_right H hW
      omega
    have hWi : (W : Int) ≤ 2147483647 := by
      have : (W : Int) ≤ ((H * W : Nat) : Int) := by
        exact_mod_cast Nat.le_mul_of_pos_left W hH
      omega
    have hty := ofOutputs_typed32 H W hH hW hHi hWi r
    have hbound := ofOutputs_cellSum_le H W hH hW r
    obtain ⟨_, h0, hsum⟩ := legalRun32_sum ((MazeState.ofOutputs H W r).cellSum)
      (by omega) hwf hty (ofOutputs_cellsInRange H W hH hW r) (by rw [hs])
      (by rw [hs]; simp) hrun
    exact ⟨by omega, h0⟩

/-- On the board generated by the outputs `7 * i + 5` (cell sum 54) the legal walk
north, east, east, south collects 7 + 4 + 1 + 2 = 14 and leaves a cell sum of 40. -/
theorem score_sum_amended_witness :
    0 < H ∧ 0 < W ∧ 9 * (H * W : Nat) ≤ (2147483647 : Int) ∧
    (MazeState.ofOutputs H W sampleOutputs).cellSum = 54 ∧
    (legalRun32 H W (MazeState.ofOutputs H W sampleOutputs) [3, 0, 0, 2]).map
      (fun sk => (sk.game_score_, sk.cellSum)) = some (14, 40) ∧
    ((legalRun32 H W (MazeState.ofOutputs H W sampleOutputs) [3, 0, 0, 2]).get
        (by decide)).game_score_ =
      (MazeState.ofOutputs H W sampleOutputs).cellSum -
        ((legalRun32 H W (MazeState.ofOutputs H W sampleOutputs) [3, 0, 0, 2]).get
          (by decide)).cellSum ∧
    ∃ s1, sampleState.advance32 W 3 = some s1 ∧
      s1.game_score_ + s1.cellSum = sampleState.game_score_ + sampleState.cellSum :=
  ⟨by decide, by decide, by decide, by decide, by decide,
    ((score_sum_amended H W).2 sampleOutputs [3, 0, 0, 2] _ (by decide) (by decide)
      (by decide) (Option.some_get _).symm).1,
    (score_sum_amended H W).1 sampleState 3 (by decide) (by decide) (by decide)
      (by decide) (by decide)⟩

theorem greedyStep32_eq {W : Nat} {state : State} {a v : Int}
    (h : candidateScore32 W state a = some v) (best : Int × Int) :
    greedyStep32 W state best a = some (if v > best.1 then (v, a) else best) := by
  cases hadv : state.advance32 W a with
  | none => simp [candidateScore32, hadv] at h
  | some s1 =>
    simp only [candidateScore32, hadv, Option.map_some', Option.some.injEq] at h
    simp only [greedyStep32, hadv, Option.bind_eq_bind, Option.some_bind, h]
    by_cases hv : v > best.1 <;> simp [hv]

theorem candidateScore32_eq {H W : Nat} {s : MazeState} (hwf : s.WF H W)
    (hty : s.typed32 H W) {a : Int} (ha : a ∈ s.legalActions H W) (hfit : s.scoreFits a) :
    ∃ v, candidateScore32 W s a = some v ∧ candidateScore s a = some v := by
  obtain ⟨s1, hs1, _, h32⟩ := advance32_legal_fits hwf hty ha hfit
  exact ⟨s1.game_score_, by simp [candidateScore32, h32, MazeState.evaluateScore],
    by simp [candidateScore, hs1, MazeState.evaluateScore]⟩

theorem greedyLoop32_eq {W : Nat} {state : State} (l : List Int)
    (h : ∀ a ∈ l, ∃ v, candidateScore32 W state a = some v ∧ candidateScore state a = some v)
    (best : Int × Int) : greedyLoop32 W state l best = greedyLoop state l best := by
  induction l generalizing best with
  | nil => rfl
  | cons a rest ih =>
    obtain ⟨v, h1, h2⟩ := h a (List.mem_cons_self a rest)
    simp only [greedyLoop32, greedyLoop, greedyStep32_eq h1, greedyStep_eq h2,
      Option.some_bind]
    exact ih (fun b hb => h b (List.mem_cons_of_mem a hb)) _

theorem greedyAction32_eq {H W : Nat} {s : MazeState} (hwf : s.WF H W)
    (hty : s.typed32 H W) (hfit : ∀ a ∈ s.legalActions H W, s.scoreFits a) :
    greedyAction32 H W s = greedyAction H W s := by
  simp only [greedyAction32, greedyAction]
  rw [greedyLoop32_eq (s.legalActions H W)
    (fun a ha => candidateScore32_eq hwf hty ha (hfit a ha))]

/-- C1 as stated fails on the machine's 32-bit `int`: on a 3x4 board whose four
neighbours of the agent at (1,1) are positive, with `game_score_ = INT_MAX`, the
score is non-negative and all four actions are legal, but every candidate score
wraps below `-INF`, so the assertion `best_action != -1` fails and no action is
returned. -/
theorem greedy_optimal_counterexample :
    ringState.WF H W ∧ ringState.typed32 H W ∧ ringState.inBounds H W ∧
    0 ≤ ringState.game_score_ ∧ ringState.legalActions H W = [0, 1, 2, 3] ∧
    candidateScore32 W ringState 0 = some (-2147483647) ∧
    candidateScore32 W ringState 1 = some (-2147483643) ∧
    candidateScore32 W ringState 2 = some (-2147483643) ∧
    candidateScore32 W ringState 3 = some (-2147483643) ∧
    greedyAction32 H W ringState = none := by
  decide

/-- C1 amended: one-ply greedy optimality with lowest-index tie-break, for a state
with the agent in the grid, a non-negative score, a non-empty `legalActions()` and no
legal action whose addition `game_score_ + point` exceeds `INT_MAX`: `greedyAction`
returns a legal action whose successor's `evaluated_score_` is at least that of every
legal action's successor, and strictly greater than that of every legal action of
smaller index. -/
theorem greedy_optimal_amended (H W : Nat) (s : MazeState) (hwf : s.WF H W)
    (hty : s.typed32 H W) (hin : s.inBounds H W) (hs : 0 ≤ s.game_score_)
    (hne : s.legalActions H W ≠ []) (hfit : ∀ a ∈ s.legalActions H W, s.scoreFits a) :
    ∃ a sa, greedyAction32 H W s = some a ∧ a ∈ s.legalActions H W ∧
      candidateScore32 W s a = some sa ∧
      ∀ b ∈ s.legalActions H W, ∃ sb, candidateScore32 W s b = some sb ∧ sb ≤ sa ∧
        (b < a → sb < sa) := by
  have _ := hin
  obtain ⟨a, sa, hg, hmem, hsa, hall⟩ := greedyAction_spec hwf (by unfold INF; omega) hne
  have hc : ∀ b ∈ s.legalActions H W, candidateScore32 W s b = candidateScore s b := by
    intro b hb
    obtain ⟨v, h1, h2⟩ := candidateScore32_eq hwf hty hb (hfit b hb)
    rw [h1, h2]
  refine ⟨a, sa, by rw [greedyAction32_eq hwf hty hfit]; exact hg, hmem,
    by rw [hc a hmem]; exact hsa, ?_⟩
  intro b hb
  obtain ⟨sb, hsb, hle, hlt⟩ := hall b hb
  exact ⟨sb, by rw [hc b hb]; exact hsb, hle, hlt⟩

/-- On the sample 3x4 board the candidates score 2, 0, 5, 6 and greedy picks 3. -/
theorem greedy_optimal_amended_witness :
    sampleState.WF H W ∧ sampleState.typed32 H W ∧ sampleState.inBounds H W ∧
    0 ≤ sampleState.game_score_ ∧ sampleState.legalActions H W ≠ [] ∧
    (∀ a ∈ sampleState.legalActions H W, sampleState.scoreFits a) ∧
    greedyAction32 H W sampleState = some 3 ∧
    ∃ a sa, greedyAction32 H W sampleState = some a ∧ a ∈ sampleState.legalActions H W ∧
      candidateScore32 W sampleState a = some sa ∧
      ∀ b ∈ sampleState.legalActions H W, ∃ sb, candidateScore32 W sampleState b = some sb ∧
        sb ≤ sa ∧ (b < a → sb < sa) :=
  ⟨by decide, by decide, by decide, by decide, by decide, by decide, by decide,
    greedy_optimal_amended H W sampleState (by decide) (by decide) (by decide) (by decide)
      (by decide) (by decide)⟩

/-- C18 amended: for a state with the agent in bounds, non-negative cell values, a
non-empty `legalActions()`, `game_score_ > -INF` and no legal action whose addition
`game_score_ + point` exceeds `INT_MAX`, `greedyAction` returns the first action in
`legalActions()` order whose destination cell value is maximal among the destination
cells of all legal actions; the result is the same for every state with the same
board and agent position whose `game_score_` satisfies the same two conditions,
whatever its `turn_` and stale `evaluated_score_`. -/
theorem greedy_argmax_amended (H W : Nat) (s : MazeState) (hwf : s.WF H W)
    (hty : s.typed32 H W) (hin : s.inBounds H W) (hnn : s.nonNegCells)
    (hne : s.legalActions H W ≠ []) (hlow : -INF < s.game_score_)
    (hfit : ∀ a ∈ s.legalActions H W, s.scoreFits a) :
    greedyAction32 H W s = argmaxAction H W s ∧
    (∃ a v, greedyAction32 H W s = some a ∧ a ∈ s.legalActions H W ∧
      s.destValue a = some v ∧
      ∀ b ∈ s.legalActions H W, ∃ vb, s.destValue b = some vb ∧ vb ≤ v ∧
        (b < a → vb < v)) ∧
    (∀ t : MazeState, t.points_ = s.points_ → t.character_ = s.character_ →
      t.typed32 H W → -INF < t.game_score_ →
      (∀ a ∈ t.legalActions H W, t.scoreFits a) →
      greedyAction32 H W t = greedyAction32 H W s) := by
  have _ := hin
  have he := greedyAction32_eq hwf hty hfit
  refine ⟨by rw [he]; exact greedy_eq_argmax hwf hnn hne hlow,
    by rw [he]; exact greedy_first_max hwf hnn hne hlow, ?_⟩
  intro t hp hc htt hlt hfitt
  have hwft : t.WF H W := by
    unfold MazeState.WF
    rw [hp]
    exact hwf
  have hnnt : t.nonNegCells := by
    unfold MazeState.nonNegCells
    rw [hp]
    exact hnn
  have hnet : t.legalActions H W ≠ [] := by
    have hl : t.legalActions H W = s.legalActions H W := by
      simp [MazeState.legalActions, hc]
    rw [hl]
    exact hne
  rw [greedyAction32_eq hwft htt hfitt, he, greedy_eq_argmax hwft hnnt hnet hlt,
    greedy_eq_argmax hwf hnn hne hlow]
  exact argmaxAction_congr H W hp hc

/-- On the sample board (score 0) greedy returns 3, the first maximal neighbour
among the destination values 2, 0, 5, 6. -/
theorem greedy_argmax_amended_witness :
    sampleState.WF H W ∧ sampleState.typed32 H W ∧ sampleState.inBounds H W ∧
    sampleState.nonNegCells ∧ sampleState.legalActions H W ≠ [] ∧
    -INF < sampleState.game_score_ ∧
    (∀ a ∈ sampleState.legalActions H W, sampleState.scoreFits a) ∧
    argmaxAction H W sampleState = some 3 ∧
    greedyAction32 H W sampleState = argmaxAction H W sampleState :=
  ⟨by decide, by decide, by decide, by decide, by decide, by decide, by decide, by decide,
    (greedy_argmax_amended H W sampleState (by decide) (by decide) (by decide) (by decide)
      (by decide) (by decide) (by decide)).1⟩

end Maze
